import Mathlib

/-!
Shallow embedding of the templater repository's value-merge engine
(`internal/values/loader.go`) and strict-template wrapper
(`internal/template/strict.go`), with theorems checking the
natural-language specification's claims against the code.

Go strings are modelled as `List Char` (each `Char` one rune; the code
under scrutiny only manipulates ASCII bytes, where Go's byte-wise
indexing agrees with rune-wise indexing).  Go's `map[string]any` is
modelled as an association list with unique keys (`Tree`); iteration
order of a Go map is arbitrary, the list order stands in for one such
order and all claim statements are phrased through `lookupKey`, which is
order-insensitive for maps with unique keys.
-/

namespace Templater

/-- Floating-point result of Go's `strconv.ParseFloat`.  A finite float
is kept as its exact decimal reading `mant · 10 ^ exp10` (IEEE-754
rounding of `float64` is not modelled; the representation is the one the
parser produced, not a canonical form). -/
inductive GoFloat where
  | finite (mant : Int) (exp10 : Int)
  | inf (neg : Bool)
  | nan
  deriving DecidableEq

mutual
/-- A dynamic Go value (`any`) as it appears in the loader's value trees.
`vTree` models `map[string]any` (the only shape `deepMerge` recognizes as
a mergeable map); `vITree` models `map[interface{}]interface{}` with
string keys, the shape produced by YAML unmarshalling for nested
mappings (see `TestLoadYAMLValues`); `vSeq` models `[]any`. -/
inductive Value where
  | vStr (s : List Char)
  | vBool (b : Bool)
  | vInt (n : Int)
  | vFloat (f : GoFloat)
  | vTree (t : Tree)
  | vITree (t : Tree)
  | vSeq (l : ValueList)

/-- A Go `map[string]any`, modelled as an association list of keys and
values (a Go map has unique keys; see `nodupKeys`). -/
inductive Tree where
  | nil
  | cons (k : List Char) (v : Value) (rest : Tree)

/-- A Go `[]any`. -/
inductive ValueList where
  | nil
  | cons (v : Value) (rest : ValueList)
end

/-- Build a `Tree` from a list of bindings (notation helper for examples). -/
def Tree.ofList : List (List Char × Value) → Tree
  | [] => .nil
  | (k, v) :: rest => .cons k v (Tree.ofList rest)

/-- Go map read `m[k]`: the value stored at key `k`, if any. -/
def lookupKey : Tree → List Char → Option Value
  | .nil, _ => none
  | .cons k' v rest, k => if k' = k then some v else lookupKey rest k

/-- Go map write `m[k] = v`: replaces an existing binding in place,
otherwise appends a new one. -/
def setKey : Tree → List Char → Value → Tree
  | .nil, k, v => .cons k v .nil
  | .cons k' v' rest, k, v =>
    if k' = k then .cons k v rest else .cons k' v' (setKey rest k v)

/-- The list of keys of a tree, in storage order. -/
def keysOf : Tree → List (List Char)
  | .nil => []
  | .cons k _ rest => k :: keysOf rest

/-- Concatenation of two association lists (proof helper). -/
def tappend : Tree → Tree → Tree
  | .nil, t => t
  | .cons k v rest, t => .cons k v (tappend rest t)

/-- `deepMerge` from `loader.go`: recursively merges `src` into `dst`.
Only `map[string]any` values (`vTree`) are merged recursively; when the
destination does not already hold a `vTree` at the key, the source
subtree is deep-copied into a fresh empty tree; every other value kind
(including `vITree`) falls into the default branch and is written
through unchanged. -/
def deepMerge : Tree → Tree → Tree
  | dst, .nil => dst
  | dst, .cons k v rest =>
    let dst' :=
      match v with
      | .vTree srcMap =>
        match lookupKey dst k with
        | some (.vTree dstMap) => setKey dst k (.vTree (deepMerge dstMap srcMap))
        | _ => setKey dst k (.vTree (deepMerge .nil srcMap))
      | _ => setKey dst k v
    deepMerge dst' rest

/-- `MergeValues` from `loader.go`: merges the four sources into an
accumulator that starts empty, lowest precedence first (YAML file, then
environment, then `--set` overrides, then config-supplied values). -/
def MergeValues (yamlValues envValues setValues configValues : Tree) : Tree :=
  deepMerge (deepMerge (deepMerge (deepMerge .nil yamlValues) envValues) setValues) configValues

/-- Characters of a string literal (notation helper). -/
def str (s : String) : List Char := s.data

/-- ASCII lower-casing of one character (Go's `strings.ToLower`,
restricted to the ASCII range the loader's inputs use). -/
def lowerChar (c : Char) : Char :=
  if 'A' ≤ c ∧ c ≤ 'Z' then Char.ofNat (c.toNat + 32) else c

/-- ASCII upper-casing of one character (Go's `strings.ToUpper` applied
to a one-byte string, as `toCamelCase` does). -/
def upperChar (c : Char) : Char :=
  if 'a' ≤ c ∧ c ≤ 'z' then Char.ofNat (c.toNat - 32) else c

/-- Go's `strings.ToLower` on an ASCII string. -/
def lowerStr (s : List Char) : List Char := s.map lowerChar

/-- Whitespace recognized by Go's `unicode.IsSpace` (ASCII part). -/
def isGoSpace (c : Char) : Bool :=
  c = ' ' ∨ c = '\t' ∨ c = '\n' ∨ c = '\x0b' ∨ c = '\x0c' ∨ c = '\r'

/-- Go's `strings.TrimSpace` (leading and trailing whitespace removed). -/
def trimSpace (s : List Char) : List Char :=
  ((s.dropWhile isGoSpace).reverse.dropWhile isGoSpace).reverse

/-- Whether `p` is a leading pattern of `s` (Go's `strings.HasPre`-style
check used by the substring scanners below). -/
def isPref : List Char → List Char → Bool
  | [], _ => true
  | _ :: _, [] => false
  | a :: as, b :: bs => a = b && isPref as bs

/-- Leftmost occurrence of `sep` in `s`: `some (before, after)` splits
`s` as `before ++ sep ++ after` at the first occurrence, `none` if `sep`
does not occur.  This is the common core of Go's `strings.Contains`,
`strings.Index`, `strings.Split` and `strings.SplitN`. -/
def splitFirst : List Char → List Char → Option (List Char × List Char)
  | [], sep => if isPref sep [] then some ([], []) else none
  | c :: rest, sep =>
    if isPref sep (c :: rest) then some ([], (c :: rest).drop sep.length)
    else (splitFirst rest sep).map (fun p => (c :: p.1, p.2))

/-- Go's `strings.Contains`. -/
def strContainsB (s sub : List Char) : Bool := (splitFirst s sub).isSome

/-- Worker for `goSplit`: scans the string one character at a time; a
positive `skip` count consumes the remainder of a matched separator. -/
def goSplitAux (sep : List Char) : Nat → List Char → List Char → List (List Char)
  | _, acc, [] => [acc.reverse]
  | skip + 1, acc, _ :: rest => goSplitAux sep skip acc rest
  | 0, acc, c :: rest =>
    if isPref sep (c :: rest) then acc.reverse :: goSplitAux sep (sep.length - 1) [] rest
    else goSplitAux sep 0 (c :: acc) rest

/-- Go's `strings.Split` for a nonempty separator. -/
def goSplit (s sep : List Char) : List (List Char) := goSplitAux sep 0 [] s

/-- Go's `strings.SplitN(s, sep, 2)`: at most one split, at the first
occurrence of `sep`. -/
def goSplitN2 (s sep : List Char) : List (List Char) :=
  match splitFirst s sep with
  | none => [s]
  | some (a, b) => [a, b]

/-- Go's `strings.Index` for a one-character pattern: byte index of the
first occurrence of `c`, or `-1`. -/
def goIndexOf : List Char → Char → Int
  | [], _ => -1
  | c' :: rest, c =>
    if c' = c then 0
    else
      let r := goIndexOf rest c
      if r < 0 then -1 else r + 1

/-- Decimal digit parser: the value of a nonempty all-digit string. -/
def digitsVal : List Char → Option Nat
  | [] => none
  | [c] => if c.isDigit then some (c.toNat - '0'.toNat) else none
  | c :: rest =>
    if c.isDigit then
      (digitsVal rest).map (fun n => (c.toNat - '0'.toNat) * 10 ^ rest.length + n)
    else none

/-- Go's `strconv.Atoi` on a 64-bit platform: optional sign, decimal
digits, error (`none`) on empty input, stray characters or overflow
past the `int64` range. -/
def goAtoi (s : List Char) : Option Int :=
  let signed : Option Int :=
    match s with
    | '+' :: rest => (digitsVal rest).map (fun n => (n : Int))
    | '-' :: rest => (digitsVal rest).map (fun n => -(n : Int))
    | _ => (digitsVal s).map (fun n => (n : Int))
  signed.bind (fun v => if -(2 ^ 63) ≤ v ∧ v < 2 ^ 63 then some v else none)

/-- Exponent part of a float literal: `e`/`E`, optional sign, digits. -/
def parseExpPart : List Char → Option Int
  | e :: rest =>
    if e = 'e' ∨ e = 'E' then
      match rest with
      | '+' :: ds => (digitsVal ds).map (fun n => (n : Int))
      | '-' :: ds => (digitsVal ds).map (fun n => -(n : Int))
      | ds => (digitsVal ds).map (fun n => (n : Int))
    else none
  | [] => none

/-- Mantissa and optional exponent of a decimal float literal: digits
with an optional decimal point (at least one digit overall), then an
optional exponent.  Returns the exact decimal reading `(mant, exp10)`. -/
def parseMantissa (s : List Char) : Option (Nat × Int) :=
  let intPart := s.takeWhile Char.isDigit
  let rest := s.dropWhile Char.isDigit
  match rest with
  | '.' :: rest2 =>
    let fracPart := rest2.takeWhile Char.isDigit
    let rest3 := rest2.dropWhile Char.isDigit
    if intPart = [] ∧ fracPart = [] then none
    else
      let iv : Nat := (digitsVal intPart).getD 0
      let fv : Nat := (digitsVal fracPart).getD 0
      let mant : Nat := iv * 10 ^ fracPart.length + fv
      let e0 : Int := -(fracPart.length : Int)
      match rest3 with
      | [] => some (mant, e0)
      | _ => (parseExpPart rest3).map (fun e => (mant, e0 + e))
  | [] => if intPart = [] then none else (digitsVal intPart).map (fun n => (n, (0 : Int)))
  | rest3 =>
    if intPart = [] then none
    else (digitsVal intPart).bind (fun n => (parseExpPart rest3).map (fun e => (n, e)))

/-- Go's `strconv.ParseFloat(s, 64)`, modelled over exact decimal
rationals: optional sign, then either a decimal mantissa with optional
exponent, or the special spellings `inf`/`infinity` (case-insensitive);
bare `nan` is accepted unsigned.  Hexadecimal floats, digit-separating
underscores and overflow-to-infinity are outside the loader's inputs
and are not modelled. -/
def goParseFloat (s : List Char) : Option GoFloat :=
  let special : List Char → Bool → Option GoFloat := fun body neg =>
    if lowerStr body = str "inf" ∨ lowerStr body = str "infinity" then some (.inf neg)
    else none
  match s with
  | '+' :: rest =>
    match special rest false with
    | some f => some f
    | none => (parseMantissa rest).map (fun p => .finite (p.1 : Int) p.2)
  | '-' :: rest =>
    match special rest true with
    | some f => some f
    | none => (parseMantissa rest).map (fun p => .finite (-(p.1 : Int)) p.2)
  | _ =>
    if lowerStr s = str "nan" then some .nan
    else
      match special s false with
      | some f => some f
      | none => (parseMantissa s).map (fun p => .finite (p.1 : Int) p.2)

/-- Capitalized-tail concatenation loop of `toCamelCase`: appends every
nonempty part with its first character upper-cased. -/
def camelTail : List (List Char) → List Char
  | [] => []
  | [] :: rest => camelTail rest
  | (c :: cs) :: rest => (upperChar c :: cs) ++ camelTail rest

/-- `toCamelCase` from `loader.go`: lower-cases the whole key, splits on
underscores, keeps the first segment and capitalizes the first character
of every subsequent nonempty segment. -/
def toCamelCase (s : List Char) : List Char :=
  if s = [] then s
  else
    match goSplit (lowerStr s) ['_'] with
    | [] => []
    | p :: rest => p ++ camelTail rest

/-- `convertValue` from `loader.go`: case-insensitive `true`/`false`
become booleans, then an integer parse is attempted, then a float
parse, otherwise the string is kept unchanged. -/
def convertValue (value : List Char) : Value :=
  if lowerStr value = str "true" then .vBool true
  else if lowerStr value = str "false" then .vBool false
  else
    match goAtoi value with
    | some intVal => .vInt intVal
    | none =>
      match goParseFloat value with
      | some floatVal => .vFloat floatVal
      | none => .vStr value

/-- Joins dotted-path segments back with `.` (Go's `strings.Join(keys, ".")`,
used for the collision error message). -/
def joinDots : List (List Char) → List Char
  | [] => []
  | [k] => k
  | k :: rest => k ++ '.' :: joinDots rest

/-- The recursive walk of `setNestedValue` from `loader.go`: descends
along the dotted path, creating empty intermediate maps for missing
keys, failing when an intermediate key holds a non-map value; `pre` is
the already-walked path prefix (for the error message).  Go mutates the
shared nested maps in place; the functional model rebuilds the spine,
which yields the same resulting tree. -/
def setNestedWalk (t : Tree) (pre : List (List Char)) (keyList : List (List Char)) (value : Value) :
    Except (List Char) Tree :=
  match keyList with
  | [] => .ok t
  | [k] => .ok (setKey t k value)
  | k :: rest =>
    match lookupKey t k with
    | some (.vTree m) =>
      (setNestedWalk m (pre ++ [k]) rest value).map (fun m' => setKey t k (.vTree m'))
    | none =>
      (setNestedWalk .nil (pre ++ [k]) rest value).map (fun m' => setKey t k (.vTree m'))
    | some _ =>
      .error (str "key " ++ joinDots (pre ++ [k]) ++ str " is not a map, cannot set nested value")

/-- `setNestedValue` from `loader.go`: writes `value` at the dotted path
`key` inside `values`. -/
def setNestedValue (values : Tree) (key : List Char) (value : Value) : Except (List Char) Tree :=
  setNestedWalk values [] (goSplit key ['.']) value

/-- Processing of one comma-separated segment of a `--set` string:
trim, skip empty, split at the first `=`, trim key and value, convert
the value's type and write it at the dotted path. -/
def processPair (acc : Tree) (rawPair : List Char) : Except (List Char) Tree :=
  let pair := trimSpace rawPair
  if pair = [] then .ok acc
  else
    match goSplitN2 pair ['='] with
    | [k0, v0] =>
      let key := trimSpace k0
      let value := trimSpace v0
      match setNestedValue acc key (convertValue value) with
      | .ok t => .ok t
      | .error e =>
        .error (str "error setting nested value for key " ++ key ++ str ": " ++ e)
    | _ => .error (str "invalid set value format: " ++ pair ++ str " (expected key=value)")

/-- `ParseSetValues` from `loader.go`: each raw argument is split on
commas and every segment is processed in order into one tree; the first
failing segment aborts with its error (Go returns `nil` for the tree,
modelled by `Except`). -/
def ParseSetValues (setValues : List (List Char)) : Except (List Char) Tree :=
  setValues.foldlM (fun acc raw => (goSplit raw [',']).foldlM processPair acc) Tree.nil

/-- `StrictModeError` from `strict.go`. -/
structure StrictModeError where
  Variable : List Char
  Template : List Char
  deriving DecidableEq

/-- The two error-message patterns recognized by the wrapper. -/
def mapKeyPat : List Char := str "map has no entry for key"

/-- Split pattern locating the quoted key. -/
def keyQuotePat : List Char := str "key \""

/-- Contains pattern of the field branch. -/
def cantEvalPat : List Char := str "can't evaluate field"

/-- Split pattern locating the field name. -/
def fieldSpacePat : List Char := str "field "

/-- Key branch of `extractVariableFromError`: on messages containing
`map has no entry for key`, takes the text after the first `key "` up
to the next quote; yields nothing (falling through) when the message
lacks the phrase, the split finds no `key "`, there is no later quote,
or the quote is at position 0 (empty key). -/
def keyBranch (errMsg : List Char) : Option (List Char) :=
  if strContainsB errMsg mapKeyPat then
    match goSplit errMsg keyQuotePat with
    | _ :: p1 :: _ =>
      let endQuote := goIndexOf p1 '"'
      if 0 < endQuote then some (p1.take endQuote.toNat) else none
    | _ => none
  else none

/-- Field branch of `extractVariableFromError`: on messages containing
`can't evaluate field`, takes the text after the first `field ` up to
the next space (`spaceParts[0]`, which always exists). -/
def fieldBranch (errMsg : List Char) : Option (List Char) :=
  if strContainsB errMsg cantEvalPat then
    match goSplit errMsg fieldSpacePat with
    | _ :: p1 :: _ =>
      match goSplit p1 [' '] with
      | s0 :: _ => some s0
      | [] => none
    | _ => none
  else none

/-- `extractVariableFromError` from `strict.go`: the key pattern is
tried first, then the field pattern, then the literal `unknown`. -/
def extractVariableFromError (errMsg : List Char) : List Char :=
  match keyBranch errMsg with
  | some r => r
  | none =>
    match fieldBranch errMsg with
    | some r => r
    | none => str "unknown"

/-- One unit of a parsed template body: literal text or a single-key
lookup (`{{.key}}`).  Modelled from the spec: the `text/template`
evaluation engine is an external collaborator, specified only at its
interface ("evaluate template string T against data D"); only the shape
the strict-mode claims exercise — literal text interleaved with key
lookups — is represented. -/
inductive Chunk where
  | lit (s : List Char)
  | lookup (key : List Char)

/-- `StrictTemplate` from `strict.go`: the wrapped template (name and
parsed body) plus the strict-mode flag; `NewStrictTemplate` sets the
engine's `missingkey=error` option exactly when `StrictMode` is true,
so the option is identified with the flag. -/
structure StrictTemplate where
  name : List Char
  chunks : List Chunk
  StrictMode : Bool

/-- `NewStrictTemplate` from `strict.go`: a fresh wrapper with the given
name and mode (and a still-empty template body). -/
def NewStrictTemplate (name : List Char) (strictMode : Bool) : StrictTemplate :=
  { name := name, chunks := [], StrictMode := strictMode }

/-- `ParseTemplate` from `strict.go`, with the engine's parser treated
as a black box: installs the already-parsed body (syntax errors are out
of scope of the claims). -/
def ParseTemplate (st : StrictTemplate) (content : List Chunk) : StrictTemplate :=
  { st with chunks := content }

/-- Rendering of a scalar value by the engine (`fmt`-style printing;
composite values print as an abstracted placeholder, which no claim
relies on). -/
def renderValue : Value → List Char
  | .vStr s => s
  | .vBool true => str "true"
  | .vBool false => str "false"
  | .vInt n => str (toString n)
  | .vFloat _ => str "float"
  | .vTree _ => str "map[]"
  | .vITree _ => str "map[]"
  | .vSeq _ => str "seq[]"

/-- Modelled from the spec: the engine's missing-key failure text for a
lookup of `key` in template `name` (wording and shape taken from the
engine's documented behaviour, fixed position info). -/
def missingKeyMsg (name key : List Char) : List Char :=
  str "template: " ++ name ++ str ":1:2: executing \"" ++ name ++ str "\" at <." ++ key ++
    str ">: map has no entry for key \"" ++ key ++ str "\""

/-- Modelled from the spec: the external `text/template` execution
engine.  In lenient mode an unresolved lookup renders the placeholder
`<no value>`; with the `missingkey=error` option it aborts with the
missing-key failure text. -/
def runEngine (missingkeyError : Bool) (name : List Char) (chunks : List Chunk) (data : Tree) :
    Except (List Char) (List Char) :=
  match chunks with
  | [] => .ok []
  | .lit s :: rest => (runEngine missingkeyError name rest data).map (fun out => s ++ out)
  | .lookup key :: rest =>
    match lookupKey data key with
    | some v => (runEngine missingkeyError name rest data).map (fun out => renderValue v ++ out)
    | none =>
      if missingkeyError then .error (missingKeyMsg name key)
      else (runEngine missingkeyError name rest data).map (fun out => str "<no value>" ++ out)

/-- Execution failure of the wrapper: either a reclassified strict-mode
violation or the engine's raw error. -/
inductive ExecError where
  | strictErr (e : StrictModeError)
  | engineErr (msg : List Char)
  deriving DecidableEq

/-- `ExecuteTemplate` from `strict.go`: runs the underlying template; in
strict mode an engine error whose text matches one of the two known
missing-key phrasings is wrapped into a `StrictModeError` carrying the
extracted variable and the template's name, every other error passes
through raw. -/
def ExecuteTemplate (st : StrictTemplate) (data : Tree) : Except ExecError (List Char) :=
  match runEngine st.StrictMode st.name st.chunks data with
  | .ok result => .ok result
  | .error e =>
    if st.StrictMode then
      if strContainsB e mapKeyPat || strContainsB e cantEvalPat then
        .error (.strictErr { Variable := extractVariableFromError e, Template := st.name })
      else .error (.engineErr e)
    else .error (.engineErr e)

/-!
Heap model of `deepMerge`/`MergeValues`, for the aliasing claim: Go maps
are reference values, so object identity is made explicit.  A map node
lives at an address; `hTree` stores a reference.  Scalar kinds are
represented by one `hStr` stand-in plus `hInt`/`hBool` (the merge code
treats every non-`map[string]any` value alike, in the default branch).
-/


/-- A heap value: a scalar, or a reference to a map node. -/
inductive HValue where
  | hStr (s : List Char)
  | hInt (n : Int)
  | hBool (b : Bool)
  | hTree (a : Nat)
  deriving DecidableEq

/-- Contents of one map node. -/
abbrev HNode := List (List Char × HValue)

/-- The modelled heap: allocated nodes and the next fresh address. -/
structure Heap where
  data : List (Nat × HNode)
  next : Nat
  deriving DecidableEq

/-- Lookup of a node by address. -/
def lookupAddr : List (Nat × HNode) → Nat → Option HNode
  | [], _ => none
  | (a', node) :: rest, a => if a' = a then some node else lookupAddr rest a

/-- Lookup of an entry of a node by key. -/
def lookupEntry : HNode → List Char → Option HValue
  | [], _ => none
  | (k', v) :: rest, k => if k' = k then some v else lookupEntry rest k

/-- The node stored at `a` (an unallocated address reads as empty). -/
def hread (h : Heap) (a : Nat) : HNode :=
  match lookupAddr h.data a with
  | some node => node
  | none => []

/-- Assoc-list update used by `hwrite`. -/
def hsetEntry : HNode → List Char → HValue → HNode
  | [], k, v => [(k, v)]
  | (k', v') :: rest, k, v =>
    if k' = k then (k, v) :: rest else (k', v') :: hsetEntry rest k v

/-- Go map write `m[k] = v` where `m` lives at address `a`. -/
def hwrite (h : Heap) (a : Nat) (k : List Char) (v : HValue) : Heap :=
  { h with data := h.data.map (fun p => if p.1 = a then (p.1, hsetEntry p.2 k v) else p) }

/-- Go `make(map[string]any)`: allocates a fresh empty node. -/
def halloc (h : Heap) : Nat × Heap :=
  (h.next, { data := (h.next, []) :: h.data, next := h.next + 1 })

/-- Work items of the heap-level merge: merging one source node into a
destination node, or processing the remaining entries of a source node. -/
inductive MergeTask where
  | merge (dst src : Nat)
  | entries (dst : Nat) (es : HNode)

/-- Heap-level `deepMerge`, fuel-indexed (Go's recursion, which does not
terminate on cyclic maps, is run with explicit fuel): iterates over the
source node's entries; a `map[string]any` source value is merged into
the existing destination map when one is there, otherwise into a freshly
allocated map that is then stored; any other value is written through. -/
def runMerge : Nat → MergeTask → Heap → Option Heap
  | 0, _, _ => none
  | fuel + 1, .merge dst src, h => runMerge fuel (.entries dst (hread h src)) h
  | _ + 1, .entries _ [], h => some h
  | fuel + 1, .entries dst ((k, v) :: rest), h =>
    match v with
    | .hTree srcMap =>
      match lookupEntry (hread h dst) k with
      | some (.hTree dstMap) =>
        (runMerge fuel (.merge dstMap srcMap) h).bind (fun h' =>
          runMerge fuel (.entries dst rest) h')
      | _ =>
        let (newMap, h1) := halloc h
        (runMerge fuel (.merge newMap srcMap) h1).bind (fun h2 =>
          runMerge fuel (.entries dst rest) (hwrite h2 dst k (.hTree newMap)))
    | _ => runMerge fuel (.entries dst rest) (hwrite h dst k v)

/-- Heap-level `MergeValues`: allocates the empty accumulator and folds
the four sources into it, lowest precedence first; returns the
accumulator's address and the final heap. -/
def MergeValuesH (fuel : Nat) (yamlValues envValues setValues configValues : Nat) (h : Heap) :
    Option (Nat × Heap) :=
  let (merged, h0) := halloc h
  ((((runMerge fuel (.merge merged yamlValues) h0).bind
      (runMerge fuel (.merge merged envValues))).bind
      (runMerge fuel (.merge merged setValues))).bind
      (runMerge fuel (.merge merged configValues))).map (fun h4 => (merged, h4))

/-- Well-formedness of a heap: every allocated address and every stored
reference is below `next`. -/
def wfHeapB (h : Heap) : Bool :=
  h.data.all (fun p =>
    decide (p.1 < h.next) &&
      p.2.all (fun e =>
        match e.2 with
        | .hTree b => decide (b < h.next)
        | _ => true))

/-- The map nodes reachable from a root address by following stored
references: the root's node, and every node a reachable node refers to.
These are the (sub)trees of the value tree rooted at `root`. -/
inductive Reach (h : Heap) (root : Nat) : Nat → Prop where
  | refl : Reach h root root
  | step {a b : Nat} {k : List Char} :
      Reach h root a → (k, .hTree b) ∈ hread h a → Reach h root b

/-- Spec formulation of the camelCase tail step: upper-case the first
character of a segment (empty segments stay empty). -/
def capFirst : List Char → List Char
  | [] => []
  | c :: cs => upperChar c :: cs

/-- Structural compatibility of two trees: wherever both bind the same
key, both bind `vTree` subtrees, recursively.  This is the formal
reading of the spec's "leaf paths are disjoint at every nesting level":
no leaf (non-tree value) of one tree sits at or above a position the
other tree also populates. -/
def compatB : Tree → Tree → Bool
  | .nil, _ => true
  | .cons k va rest, b =>
    (match lookupKey b k with
     | none => true
     | some (.vTree tb) =>
       match va with
       | .vTree ta => compatB ta tb
       | _ => false
     | some _ => false) && compatB rest b

/-- Dotted-path lookup through `vTree` nodes (the shape `deepMerge`
produces and the template engine reads). -/
def lookupPath : Tree → List (List Char) → Option Value
  | _, [] => none
  | t, [k] => lookupKey t k
  | t, k :: rest =>
    match lookupKey t k with
    | some (.vTree t') => lookupPath t' rest
    | _ => none

/-!  Lemmas about trees and `deepMerge`. -/

theorem deepMerge_cons_scalar (dst : Tree) (k : List Char) (v : Value) (rest : Tree)
    (hv : ∀ ts, v ≠ Value.vTree ts) :
    deepMerge dst (.cons k v rest) = deepMerge (setKey dst k v) rest := by
  cases v with
  | vTree ts => exact absurd rfl (hv ts)
  | vStr s => rfl
  | vBool b => rfl
  | vInt n => rfl
  | vFloat f => rfl
  | vITree t => rfl
  | vSeq l => rfl

theorem deepMerge_cons_tree (dst : Tree) (k : List Char) (ts rest : Tree) :
    deepMerge dst (.cons k (.vTree ts) rest)
      = deepMerge
          (match lookupKey dst k with
           | some (.vTree td) => setKey dst k (.vTree (deepMerge td ts))
           | _ => setKey dst k (.vTree (deepMerge .nil ts))) rest := rfl

/-- List-style induction along the spine of a tree. -/
@[induction_eliminator]
theorem Tree.consInduction {motive : Tree → Prop} (nil : motive .nil)
    (cons : ∀ k v rest, motive rest → motive (.cons k v rest)) : ∀ t, motive t
  | .nil => nil
  | .cons k v rest => cons k v rest (Tree.consInduction nil cons rest)

@[simp]
theorem lookupKey_setKey_self (t : Tree) (k : List Char) (v : Value) :
    lookupKey (setKey t k v) k = some v := by
  induction t with
  | nil => simp [setKey, lookupKey]
  | cons k' v' rest ih =>
    by_cases h : k' = k <;> simp [setKey, lookupKey, h, ih]

theorem lookupKey_setKey_ne {k' k : List Char} (t : Tree) (v : Value) (h : k' ≠ k) :
    lookupKey (setKey t k' v) k = lookupKey t k := by
  induction t with
  | nil => simp [setKey, lookupKey, h]
  | cons k'' v'' rest ih =>
    by_cases h2 : k'' = k' <;> by_cases h3 : k'' = k <;>
      simp_all [setKey, lookupKey]

theorem lookupKey_eq_none_iff (t : Tree) (k : List Char) :
    lookupKey t k = none ↔ k ∉ keysOf t := by
  induction t with
  | nil => simp [lookupKey, keysOf]
  | cons k' v rest ih =>
    by_cases h : k' = k
    · subst h; simp [lookupKey, keysOf]
    · simp [lookupKey, keysOf, h, ih, Ne.symm h]

theorem lookupKey_isSome_of_mem {t : Tree} {k : List Char} (h : k ∈ keysOf t) :
    (lookupKey t k).isSome := by
  cases h2 : lookupKey t k with
  | none => exact absurd ((lookupKey_eq_none_iff t k).mp h2 h) not_false
  | some v => rfl

/-- Key-wise effect of `deepMerge` at a key the source does not define:
the destination's binding is untouched. -/
theorem lookupKey_deepMerge_of_src_none {src : Tree} {k : List Char} (dst : Tree)
    (h : lookupKey src k = none) :
    lookupKey (deepMerge dst src) k = lookupKey dst k := by
  induction src generalizing dst with
  | nil => simp [deepMerge]
  | cons k' v rest ih =>
    rw [lookupKey] at h
    by_cases hk : k' = k
    · simp [hk] at h
    · simp only [if_neg hk] at h
      cases v with
      | vTree srcMap =>
        rw [deepMerge]
        cases hdst : lookupKey dst k' with
        | some w =>
          cases w <;>
            simp_all [ih, lookupKey_setKey_ne _ _ hk]
        | none => simp_all [ih, lookupKey_setKey_ne _ _ hk]
      | vStr s => simp_all [deepMerge, ih, lookupKey_setKey_ne _ _ hk]
      | vBool b => simp_all [deepMerge, ih, lookupKey_setKey_ne _ _ hk]
      | vInt n => simp_all [deepMerge, ih, lookupKey_setKey_ne _ _ hk]
      | vFloat f => simp_all [deepMerge, ih, lookupKey_setKey_ne _ _ hk]
      | vITree t => simp_all [deepMerge, ih, lookupKey_setKey_ne _ _ hk]
      | vSeq l => simp_all [deepMerge, ih, lookupKey_setKey_ne _ _ hk]

/-- Key-wise effect of `deepMerge` at a key the source binds to a
non-`vTree` value: the source's value simply overwrites. -/
theorem lookupKey_deepMerge_scalar {src : Tree} {k : List Char} {v : Value} (dst : Tree)
    (hnd : (keysOf src).Nodup) (h : lookupKey src k = some v)
    (hv : ∀ ts, v ≠ .vTree ts) :
    lookupKey (deepMerge dst src) k = some v := by
  induction src generalizing dst with
  | nil => simp [lookupKey] at h
  | cons k' v' rest ih =>
    rw [keysOf] at hnd
    rw [lookupKey] at h
    by_cases hk : k' = k
    · simp only [if_pos hk] at h
      injection h with h
      subst hk h
      have hrest : lookupKey rest k' = none :=
        (lookupKey_eq_none_iff rest k').mpr (List.nodup_cons.mp hnd).1
      cases v' with
      | vTree srcMap => exact absurd rfl (hv srcMap)
      | vStr s => simp [deepMerge, lookupKey_deepMerge_of_src_none _ hrest]
      | vBool b => simp [deepMerge, lookupKey_deepMerge_of_src_none _ hrest]
      | vInt n => simp [deepMerge, lookupKey_deepMerge_of_src_none _ hrest]
      | vFloat f => simp [deepMerge, lookupKey_deepMerge_of_src_none _ hrest]
      | vITree t => simp [deepMerge, lookupKey_deepMerge_of_src_none _ hrest]
      | vSeq l => simp [deepMerge, lookupKey_deepMerge_of_src_none _ hrest]
    · simp only [if_neg hk] at h
      have hnd' : (keysOf rest).Nodup := (List.nodup_cons.mp hnd).2
      cases v' with
      | vTree srcMap =>
        rw [deepMerge]
        cases hdst : lookupKey dst k' with
        | some w => cases w <;> simp_all [ih]
        | none => simp_all [ih]
      | vStr s => simp_all [deepMerge, ih]
      | vBool b => simp_all [deepMerge, ih]
      | vInt n => simp_all [deepMerge, ih]
      | vFloat f => simp_all [deepMerge, ih]
      | vITree t => simp_all [deepMerge, ih]
      | vSeq l => simp_all [deepMerge, ih]

/-- Key-wise effect of `deepMerge` at a key the source binds to a
`vTree`: the result holds the recursive merge into the destination's
existing subtree when there is one, otherwise into a fresh empty tree
(a deep copy of the source subtree). -/
theorem lookupKey_deepMerge_tree {src : Tree} {k : List Char} {ts : Tree} (dst : Tree)
    (hnd : (keysOf src).Nodup) (h : lookupKey src k = some (.vTree ts)) :
    lookupKey (deepMerge dst src) k = some (.vTree
      (match lookupKey dst k with
       | some (.vTree td) => deepMerge td ts
       | _ => deepMerge .nil ts)) := by
  induction src generalizing dst with
  | nil => simp [lookupKey] at h
  | cons k' v' rest ih =>
    rw [keysOf] at hnd
    rw [lookupKey] at h
    by_cases hk : k' = k
    · simp only [if_pos hk] at h
      subst hk
      injection h with h
      subst h
      have hrest : lookupKey rest k' = none :=
        (lookupKey_eq_none_iff rest k').mpr (List.nodup_cons.mp hnd).1
      rw [deepMerge]
      cases hdst : lookupKey dst k' with
      | some w =>
        cases w <;>
          simp_all [lookupKey_deepMerge_of_src_none _ hrest]
      | none => simp_all [lookupKey_deepMerge_of_src_none _ hrest]
    · simp only [if_neg hk] at h
      have hnd' : (keysOf rest).Nodup := (List.nodup_cons.mp hnd).2
      cases v' with
      | vTree srcMap =>
        rw [deepMerge]
        cases hdst2 : lookupKey dst k' with
        | some w =>
          cases w <;>
            simp_all [ih, lookupKey_setKey_ne (k := k) _ _ hk]
        | none => simp_all [ih, lookupKey_setKey_ne (k := k) _ _ hk]
      | vStr s => simp_all [deepMerge, ih, lookupKey_setKey_ne (k := k) _ _ hk]
      | vBool b => simp_all [deepMerge, ih, lookupKey_setKey_ne (k := k) _ _ hk]
      | vInt n => simp_all [deepMerge, ih, lookupKey_setKey_ne (k := k) _ _ hk]
      | vFloat f => simp_all [deepMerge, ih, lookupKey_setKey_ne (k := k) _ _ hk]
      | vITree t => simp_all [deepMerge, ih, lookupKey_setKey_ne (k := k) _ _ hk]
      | vSeq l => simp_all [deepMerge, ih, lookupKey_setKey_ne (k := k) _ _ hk]

mutual
/-- Size measure on trees, for inductions that descend into subtrees. -/
def tsize : Tree → Nat
  | .nil => 0
  | .cons _ v rest => 1 + vsize v + tsize rest

/-- Size measure on values. -/
def vsize : Value → Nat
  | .vTree t => 1 + tsize t
  | .vITree t => 1 + tsize t
  | .vSeq l => 1 + lsize l
  | _ => 1

/-- Size measure on value lists. -/
def lsize : ValueList → Nat
  | .nil => 0
  | .cons v rest => 1 + vsize v + lsize rest
end

theorem vsize_le_tsize_of_lookup {t : Tree} {k : List Char} {v : Value}
    (h : lookupKey t k = some v) : vsize v ≤ tsize t := by
  induction t with
  | nil => simp [lookupKey] at h
  | cons k' v' rest ih =>
    rw [lookupKey] at h
    by_cases hk : k' = k
    · simp only [if_pos hk] at h
      injection h with h
      subst h
      rw [tsize]; omega
    · simp only [if_neg hk] at h
      have := ih h
      rw [tsize]; omega

theorem tsize_lt_of_lookup_tree {t tb : Tree} {k : List Char}
    (h : lookupKey t k = some (.vTree tb)) : tsize tb < tsize t := by
  have := vsize_le_tsize_of_lookup h
  rw [vsize] at this
  omega

mutual
/-- Go-map invariant, recursively: every level of the tree has unique
keys (inside `vTree` subtrees, the only ones `deepMerge` descends into). -/
def nodupRecB : Tree → Bool
  | .nil => true
  | .cons k v rest => (lookupKey rest k).isNone && subNodupB v && nodupRecB rest

/-- Recursive key-uniqueness below one value. -/
def subNodupB : Value → Bool
  | .vTree t => nodupRecB t
  | _ => true
end

@[simp]
theorem tappend_nil_right (t : Tree) : tappend t .nil = t := by
  induction t with
  | nil => rfl
  | cons k v rest ih => rw [tappend, ih]

theorem lookupKey_tappend_of_none {pre : Tree} {k : List Char} (d : Tree)
    (h : lookupKey pre k = none) :
    lookupKey (tappend pre d) k = lookupKey d k := by
  induction pre with
  | nil => rfl
  | cons k' v rest ih =>
    rw [lookupKey] at h
    by_cases hk : k' = k
    · simp [hk] at h
    · rw [if_neg hk] at h
      rw [tappend, lookupKey, if_neg hk]
      exact ih h

theorem setKey_tappend_of_none {pre : Tree} {k : List Char} (d : Tree) (v : Value)
    (h : lookupKey pre k = none) :
    setKey (tappend pre d) k v = tappend pre (setKey d k v) := by
  induction pre with
  | nil => rfl
  | cons k' v' rest ih =>
    rw [lookupKey] at h
    by_cases hk : k' = k
    · simp [hk] at h
    · rw [if_neg hk] at h
      rw [tappend, setKey, if_neg hk, tappend, ih h]

/-- `deepMerge` ignores a left chunk of the destination whose keys the
source never touches. -/
theorem deepMerge_tappend {src : Tree} (pre dst : Tree)
    (h : ∀ k, k ∈ keysOf src → lookupKey pre k = none) :
    deepMerge (tappend pre dst) src = tappend pre (deepMerge dst src) := by
  induction src generalizing dst with
  | nil => simp [deepMerge]
  | cons k v rest ih =>
    have hk : lookupKey pre k = none := h k (by rw [keysOf]; exact List.mem_cons_self k _)
    have hrest : ∀ k2, k2 ∈ keysOf rest → lookupKey pre k2 = none := fun k2 hm =>
      h k2 (by rw [keysOf]; exact List.mem_cons_of_mem _ hm)
    have hscalar : (∀ ts, v ≠ Value.vTree ts) →
        deepMerge (tappend pre dst) (.cons k v rest)
          = tappend pre (deepMerge dst (.cons k v rest)) := by
      intro hv
      rw [deepMerge_cons_scalar _ _ _ _ hv, deepMerge_cons_scalar _ _ _ _ hv,
        setKey_tappend_of_none _ _ hk, ih _ hrest]
    cases v with
    | vTree srcMap =>
      rw [deepMerge_cons_tree, deepMerge_cons_tree, lookupKey_tappend_of_none dst hk]
      cases hdst : lookupKey dst k with
      | some w =>
        cases w <;> simp only [setKey_tappend_of_none _ _ hk, ih _ hrest]
      | none => simp only [setKey_tappend_of_none _ _ hk, ih _ hrest]
    | vStr s => exact hscalar (fun _ h2 => Value.noConfusion h2)
    | vBool b => exact hscalar (fun _ h2 => Value.noConfusion h2)
    | vInt n => exact hscalar (fun _ h2 => Value.noConfusion h2)
    | vFloat f => exact hscalar (fun _ h2 => Value.noConfusion h2)
    | vITree t => exact hscalar (fun _ h2 => Value.noConfusion h2)
    | vSeq l => exact hscalar (fun _ h2 => Value.noConfusion h2)

/-- Bounded-size version of the deep-copy lemma, for induction. -/
theorem deepMerge_nil_eq_aux :
    ∀ n t, tsize t ≤ n → nodupRecB t = true → deepMerge .nil t = t := by
  intro n
  induction n with
  | zero =>
    intro t hle _
    cases t with
    | nil => rfl
    | cons k v rest => rw [tsize] at hle; omega
  | succ n ih =>
    intro t hle h
    cases t with
    | nil => rfl
    | cons k v rest =>
      rw [tsize] at hle
      rw [nodupRecB, Bool.and_assoc, Bool.and_eq_true] at h
      have hfree := h.1
      have hsub := ((Bool.and_eq_true _ _).mp h.2).1
      have hrest := ((Bool.and_eq_true _ _).mp h.2).2
      have hpreG : ∀ v' k2, k2 ∈ keysOf rest → lookupKey (Tree.cons k v' .nil) k2 = none := by
        intro v' k2 hm
        rw [lookupKey]
        by_cases hk : k = k2
        · subst hk
          rw [Option.isNone_iff_eq_none, lookupKey_eq_none_iff] at hfree
          exact absurd hm hfree
        · rw [if_neg hk]; rfl
      have hcopyRest : deepMerge Tree.nil rest = rest :=
        ih rest (by omega) hrest
      have hfinish : ∀ v', deepMerge (Tree.cons k v' .nil) rest = Tree.cons k v' rest := by
        intro v'
        have h2 := @deepMerge_tappend rest (Tree.cons k v' Tree.nil) Tree.nil (hpreG v')
        rw [tappend_nil_right] at h2
        rw [h2, hcopyRest, tappend, tappend]
      cases v with
      | vTree ts =>
        have hts : deepMerge Tree.nil ts = ts := by
          refine ih ts ?_ (by rwa [subNodupB] at hsub)
          rw [vsize] at hle; omega
        rw [deepMerge_cons_tree]
        show deepMerge (setKey Tree.nil k (Value.vTree (deepMerge Tree.nil ts))) rest = _
        rw [hts]
        exact hfinish (Value.vTree ts)
      | vStr s =>
        rw [deepMerge_cons_scalar _ _ _ _ (fun _ h2 => Value.noConfusion h2)]
        exact hfinish _
      | vBool b =>
        rw [deepMerge_cons_scalar _ _ _ _ (fun _ h2 => Value.noConfusion h2)]
        exact hfinish _
      | vInt n2 =>
        rw [deepMerge_cons_scalar _ _ _ _ (fun _ h2 => Value.noConfusion h2)]
        exact hfinish _
      | vFloat f =>
        rw [deepMerge_cons_scalar _ _ _ _ (fun _ h2 => Value.noConfusion h2)]
        exact hfinish _
      | vITree t2 =>
        rw [deepMerge_cons_scalar _ _ _ _ (fun _ h2 => Value.noConfusion h2)]
        exact hfinish _
      | vSeq l =>
        rw [deepMerge_cons_scalar _ _ _ _ (fun _ h2 => Value.noConfusion h2)]
        exact hfinish _

/-- Deep-copying into an empty tree reproduces the source exactly, for
well-formed trees (unique keys at every level). -/
theorem deepMerge_nil_eq (t : Tree) (h : nodupRecB t = true) : deepMerge .nil t = t :=
  deepMerge_nil_eq_aux (tsize t) t le_rfl h

/-!  Claim theorems. -/

/-- C1: Merge precedence.  For trees A (file), B (environment), C
(override) merged with empty pre-seeded config values by `MergeValues`:
if all three bind the same scalar (non-tree) key `k`, the merged tree
holds C's value at `k`; if only A and B bind `k` (scalars), the merged
tree holds B's value at `k`.  Key-uniqueness hypotheses state the Go-map
invariant for the association-list model. -/
theorem c1_merge_precedence :
    (∀ (A B C : Tree) (k : List Char) (a b c : Value),
      (keysOf C).Nodup →
      lookupKey A k = some a → lookupKey B k = some b → lookupKey C k = some c →
      (∀ ts, a ≠ Value.vTree ts) → (∀ ts, b ≠ Value.vTree ts) → (∀ ts, c ≠ Value.vTree ts) →
      lookupKey (MergeValues A B C .nil) k = some c) ∧
    (∀ (A B C : Tree) (k : List Char) (a b : Value),
      (keysOf B).Nodup →
      lookupKey A k = some a → lookupKey B k = some b → lookupKey C k = none →
      (∀ ts, a ≠ Value.vTree ts) → (∀ ts, b ≠ Value.vTree ts) →
      lookupKey (MergeValues A B C .nil) k = some b) := by
  constructor
  · intro A B C k a b c hndC hA hB hC ha hb hc
    show lookupKey (deepMerge (deepMerge (deepMerge (deepMerge .nil A) B) C) .nil) k = some c
    rw [deepMerge]
    exact lookupKey_deepMerge_scalar _ hndC hC hc
  · intro A B C k a b hndB hA hB hC ha hb
    show lookupKey (deepMerge (deepMerge (deepMerge (deepMerge .nil A) B) C) .nil) k = some b
    rw [deepMerge, lookupKey_deepMerge_of_src_none _ hC]
    exact lookupKey_deepMerge_scalar _ hndB hB hb

/-- C1 witness: both precedence clauses evaluated on concrete trees. -/
theorem c1_merge_precedence_witness :
    lookupKey
        (MergeValues (Tree.ofList [(['k'], Value.vStr ['a'])])
          (Tree.ofList [(['k'], Value.vStr ['b'])])
          (Tree.ofList [(['k'], Value.vStr ['c'])]) .nil) ['k']
      = some (Value.vStr ['c']) ∧
    lookupKey
        (MergeValues (Tree.ofList [(['k'], Value.vStr ['a'])])
          (Tree.ofList [(['k'], Value.vStr ['b'])]) .nil .nil) ['k']
      = some (Value.vStr ['b']) :=
  ⟨c1_merge_precedence.1 (Tree.ofList [(['k'], Value.vStr ['a'])])
      (Tree.ofList [(['k'], Value.vStr ['b'])])
      (Tree.ofList [(['k'], Value.vStr ['c'])]) ['k'] _ _ _
      (by decide) rfl rfl rfl
      (fun _ h => Value.noConfusion h) (fun _ h => Value.noConfusion h)
      (fun _ h => Value.noConfusion h),
    c1_merge_precedence.2 (Tree.ofList [(['k'], Value.vStr ['a'])])
      (Tree.ofList [(['k'], Value.vStr ['b'])]) .nil ['k'] _ _
      (by decide) rfl rfl rfl
      (fun _ h => Value.noConfusion h) (fun _ h => Value.noConfusion h)⟩

/-- C9 counterexample: two distinct trees that both define the
overlapping key `k` (here with equal scalar values) merge to the same
result in either order, so "A then B differs from B then A whenever both
define overlapping keys" fails as stated. -/
theorem c9_counterexample :
    (lookupKey (Tree.ofList [(['k'], Value.vStr ['x'])]) ['k']).isSome = true ∧
    (lookupKey (Tree.ofList [(['k'], Value.vStr ['x']), (['j'], Value.vStr ['y'])]) ['k']).isSome
      = true ∧
    Tree.ofList [(['k'], Value.vStr ['x'])]
      ≠ Tree.ofList [(['k'], Value.vStr ['x']), (['j'], Value.vStr ['y'])] ∧
    deepMerge (deepMerge .nil (Tree.ofList [(['k'], Value.vStr ['x'])]))
        (Tree.ofList [(['k'], Value.vStr ['x']), (['j'], Value.vStr ['y'])])
      = deepMerge
          (deepMerge .nil (Tree.ofList [(['k'], Value.vStr ['x']), (['j'], Value.vStr ['y'])]))
          (Tree.ofList [(['k'], Value.vStr ['x'])]) :=
  ⟨rfl, rfl, by intro h; simp [Tree.ofList] at h, rfl⟩

/-- C9 (amended): deep merging is deterministic — the merged binding at
any key is a function of the two trees' bindings at that key alone, so
the result is independent of Go's map iteration order — and the merge
order matters at any key where the two trees hold different non-tree
values (while trees agreeing at every overlapping key can merge to the
same result in both orders, as the counterexample shows). -/
theorem c9_merge_order_sensitivity :
    (∀ (dst src : Tree) (k : List Char), (keysOf src).Nodup →
      lookupKey (deepMerge dst src) k =
        (match lookupKey src k with
         | none => lookupKey dst k
         | some (Value.vTree ts) =>
           some (Value.vTree
             (match lookupKey dst k with
              | some (Value.vTree td) => deepMerge td ts
              | _ => deepMerge Tree.nil ts))
         | some v => some v)) ∧
    (∀ (A B : Tree) (k : List Char) (va vb : Value),
      (keysOf A).Nodup → (keysOf B).Nodup →
      lookupKey A k = some va → lookupKey B k = some vb →
      (∀ ts, va ≠ Value.vTree ts) → (∀ ts, vb ≠ Value.vTree ts) → va ≠ vb →
      lookupKey (deepMerge (deepMerge .nil A) B) k = some vb ∧
      lookupKey (deepMerge (deepMerge .nil B) A) k = some va ∧
      deepMerge (deepMerge .nil A) B ≠ deepMerge (deepMerge .nil B) A) := by
  constructor
  · intro dst src k hnd
    cases hsrc : lookupKey src k with
    | none => exact lookupKey_deepMerge_of_src_none _ hsrc
    | some v =>
      cases v with
      | vTree ts => exact lookupKey_deepMerge_tree _ hnd hsrc
      | vStr s => exact lookupKey_deepMerge_scalar _ hnd hsrc (fun _ h => Value.noConfusion h)
      | vBool b => exact lookupKey_deepMerge_scalar _ hnd hsrc (fun _ h => Value.noConfusion h)
      | vInt n => exact lookupKey_deepMerge_scalar _ hnd hsrc (fun _ h => Value.noConfusion h)
      | vFloat f => exact lookupKey_deepMerge_scalar _ hnd hsrc (fun _ h => Value.noConfusion h)
      | vITree t => exact lookupKey_deepMerge_scalar _ hnd hsrc (fun _ h => Value.noConfusion h)
      | vSeq l => exact lookupKey_deepMerge_scalar _ hnd hsrc (fun _ h => Value.noConfusion h)
  · intro A B k va vb hndA hndB hA hB hva hvb hne
    have h1 : lookupKey (deepMerge (deepMerge .nil A) B) k = some vb :=
      lookupKey_deepMerge_scalar _ hndB hB hvb
    have h2 : lookupKey (deepMerge (deepMerge .nil B) A) k = some va :=
      lookupKey_deepMerge_scalar _ hndA hA hva
    refine ⟨h1, h2, fun heq => hne ?_⟩
    rw [heq, h2] at h1
    exact Option.some.inj h1

/-- C9 (amended) witness: both clauses evaluated on concrete trees with
different scalar values at the shared key. -/
theorem c9_merge_order_sensitivity_witness :
    lookupKey (deepMerge (Tree.ofList [(['k'], Value.vStr ['x'])])
        (Tree.ofList [(['k'], Value.vStr ['y'])])) ['k'] = some (Value.vStr ['y']) ∧
    deepMerge (deepMerge .nil (Tree.ofList [(['k'], Value.vStr ['x'])]))
        (Tree.ofList [(['k'], Value.vStr ['y'])])
      ≠ deepMerge (deepMerge .nil (Tree.ofList [(['k'], Value.vStr ['y'])]))
        (Tree.ofList [(['k'], Value.vStr ['x'])]) :=
  ⟨by
    have h := c9_merge_order_sensitivity.1 (Tree.ofList [(['k'], Value.vStr ['x'])])
      (Tree.ofList [(['k'], Value.vStr ['y'])]) ['k'] (by decide)
    exact h,
    (c9_merge_order_sensitivity.2 (Tree.ofList [(['k'], Value.vStr ['x'])])
      (Tree.ofList [(['k'], Value.vStr ['y'])]) ['k'] _ _
      (by decide) (by decide) rfl rfl
      (fun _ h => Value.noConfusion h) (fun _ h => Value.noConfusion h)
      (fun h => by injection h with h; exact absurd h (by decide))).2.2⟩

/-- C10: `deepMerge` recognizes only `map[string]any` (`vTree`) as a
mergeable map; a YAML-decoded nested mapping (`vITree`, interface-typed
keys) at key `k` in the file tree is treated as an opaque value, so when
a higher-precedence source holds a `vTree` at `k` the merged result
holds (a deep copy of) the higher-precedence subtree only — nothing of
the file's nested mapping survives at `k`. -/
theorem c10_itree_replaced_wholesale :
    (∀ (A B C D : Tree) (k : List Char) (fi ts : Tree),
      (keysOf A).Nodup → (keysOf C).Nodup → nodupRecB ts = true →
      lookupKey A k = some (Value.vITree fi) →
      lookupKey B k = none → lookupKey D k = none →
      lookupKey C k = some (Value.vTree ts) →
      lookupKey (MergeValues A B C D) k = some (Value.vTree ts)) ∧
    MergeValues
        (Tree.ofList [(str "app", Value.vITree (Tree.ofList [(str "name", Value.vStr ['x'])]))])
        .nil
        (Tree.ofList [(str "app", Value.vTree (Tree.ofList [(str "version", Value.vStr ['1'])]))])
        .nil
      = Tree.ofList [(str "app", Value.vTree (Tree.ofList [(str "version", Value.vStr ['1'])]))]
      := by
  constructor
  · intro A B C D k fi ts hndA hndC hts hA hB hD hC
    show lookupKey (deepMerge (deepMerge (deepMerge (deepMerge .nil A) B) C) D) k = _
    have h1 : lookupKey (deepMerge .nil A) k = some (Value.vITree fi) :=
      lookupKey_deepMerge_scalar _ hndA hA (fun _ h => Value.noConfusion h)
    have h2 : lookupKey (deepMerge (deepMerge .nil A) B) k = some (Value.vITree fi) := by
      rw [lookupKey_deepMerge_of_src_none _ hB]; exact h1
    have h3 := lookupKey_deepMerge_tree (deepMerge (deepMerge .nil A) B) hndC hC
    rw [h2] at h3
    rw [lookupKey_deepMerge_of_src_none _ hD, h3, deepMerge_nil_eq ts hts]
  · rfl

/-- C10 witness: the general clause evaluated on the concrete file and
override trees of the second clause. -/
theorem c10_itree_replaced_wholesale_witness :
    lookupKey
        (MergeValues
          (Tree.ofList [(str "app", Value.vITree (Tree.ofList [(str "name", Value.vStr ['x'])]))])
          .nil
          (Tree.ofList
            [(str "app", Value.vTree (Tree.ofList [(str "version", Value.vStr ['1'])]))])
          .nil) (str "app")
      = some (Value.vTree (Tree.ofList [(str "version", Value.vStr ['1'])])) :=
  c10_itree_replaced_wholesale.1
    (Tree.ofList [(str "app", Value.vITree (Tree.ofList [(str "name", Value.vStr ['x'])]))])
    .nil
    (Tree.ofList [(str "app", Value.vTree (Tree.ofList [(str "version", Value.vStr ['1'])]))])
    .nil (str "app") _ _
    (by decide) (by decide) rfl rfl rfl rfl rfl

/-- The `toCamelCase` tail loop agrees with the spec's formulation
"upper-case the first character of every subsequent non-empty segment
and concatenate" (empty segments contribute nothing either way). -/
theorem camelTail_eq_capFirst (parts : List (List Char)) :
    camelTail parts = (parts.map capFirst).flatten := by
  induction parts with
  | nil => rfl
  | cons p rest ih =>
    cases p with
    | nil => simpa [camelTail, capFirst] using ih
    | cons c cs => simp [camelTail, capFirst, ih]

/-- C7: Environment-key camelCase transform: `toCamelCase` lower-cases
the key, splits on underscores, keeps the first segment and upper-cases
the first character of every subsequent non-empty segment before
concatenating; the four spec examples hold. -/
theorem c7_env_camel_case :
    toCamelCase (str "DATABASE_HOST") = str "databaseHost" ∧
    toCamelCase (str "MAX_CONNECTIONS") = str "maxConnections" ∧
    toCamelCase (str "A_B_C_D") = str "aBCD" ∧
    toCamelCase [] = [] ∧
    (∀ (s p : List Char) (rest : List (List Char)), s ≠ [] →
      goSplit (lowerStr s) ['_'] = p :: rest →
      toCamelCase s = p ++ (rest.map capFirst).flatten) := by
  refine ⟨rfl, rfl, rfl, rfl, ?_⟩
  intro s p rest hne hsplit
  rw [toCamelCase, if_neg hne, hsplit]
  show p ++ camelTail rest = _
  rw [camelTail_eq_capFirst]

/-- C7 witness: the general clause evaluated on `DATABASE_HOST`. -/
theorem c7_env_camel_case_witness :
    toCamelCase (str "DATABASE_HOST")
      = str "database" ++ ([str "host"].map capFirst).flatten :=
  c7_env_camel_case.2.2.2.2 (str "DATABASE_HOST") (str "database") [str "host"]
    (by decide) rfl

/-- C8: Override type inference: `convertValue` maps case-insensitive
`true`/`false` to booleans, otherwise a successful base-10 integer
parse to an integer, otherwise a successful float parse to a float,
otherwise keeps the string; with the five spec examples. -/
theorem c8_override_type_inference :
    convertValue (str "true") = Value.vBool true ∧
    convertValue (str "FALSE") = Value.vBool false ∧
    convertValue (str "123") = Value.vInt 123 ∧
    convertValue (str "3.14") = Value.vFloat (GoFloat.finite 314 (-2)) ∧
    convertValue (str "hello") = Value.vStr (str "hello") ∧
    (∀ s, lowerStr s = str "true" → convertValue s = Value.vBool true) ∧
    (∀ s, lowerStr s = str "false" → convertValue s = Value.vBool false) ∧
    (∀ s n, lowerStr s ≠ str "true" → lowerStr s ≠ str "false" → goAtoi s = some n →
      convertValue s = Value.vInt n) ∧
    (∀ s f, lowerStr s ≠ str "true" → lowerStr s ≠ str "false" → goAtoi s = none →
      goParseFloat s = some f → convertValue s = Value.vFloat f) ∧
    (∀ s, lowerStr s ≠ str "true" → lowerStr s ≠ str "false" → goAtoi s = none →
      goParseFloat s = none → convertValue s = Value.vStr s) := by
  refine ⟨rfl, rfl, rfl, rfl, rfl, ?_, ?_, ?_, ?_, ?_⟩
  · intro s h; rw [convertValue, if_pos h]
  · intro s hf
    rw [convertValue, if_neg (by rw [hf]; decide), if_pos hf]
  · intro s n ht hf ha
    rw [convertValue, if_neg ht, if_neg hf, ha]
  · intro s f ht hf ha hp
    rw [convertValue, if_neg ht, if_neg hf, ha, hp]
  · intro s ht hf ha hp
    rw [convertValue, if_neg ht, if_neg hf, ha, hp]

/-- C8 witness: the integer, float and string fallback clauses evaluated
on concrete inputs. -/
theorem c8_override_type_inference_witness :
    convertValue (str "42") = Value.vInt 42 ∧
    convertValue (str "2.5") = Value.vFloat (GoFloat.finite 25 (-1)) ∧
    convertValue (str "world") = Value.vStr (str "world") :=
  ⟨c8_override_type_inference.2.2.2.2.2.2.2.1 (str "42") 42
      (by decide) (by decide) rfl,
    c8_override_type_inference.2.2.2.2.2.2.2.2.1 (str "2.5") (GoFloat.finite 25 (-1))
      (by decide) (by decide) rfl rfl,
    c8_override_type_inference.2.2.2.2.2.2.2.2.2 (str "world")
      (by decide) (by decide) rfl rfl⟩

theorem nodupRecB_keys (t : Tree) (h : nodupRecB t = true) : (keysOf t).Nodup := by
  induction t with
  | nil => simp [keysOf]
  | cons k v rest ih =>
    rw [nodupRecB, Bool.and_assoc, Bool.and_eq_true] at h
    have hfree := h.1
    have hrest := ((Bool.and_eq_true _ _).mp h.2).2
    rw [keysOf, List.nodup_cons]
    rw [Option.isNone_iff_eq_none, lookupKey_eq_none_iff] at hfree
    exact ⟨hfree, ih hrest⟩

theorem nodupRecB_lookup {t ts : Tree} {k : List Char} (h : nodupRecB t = true)
    (hl : lookupKey t k = some (Value.vTree ts)) : nodupRecB ts = true := by
  induction t with
  | nil => simp [lookupKey] at hl
  | cons k' v rest ih =>
    rw [nodupRecB, Bool.and_assoc, Bool.and_eq_true] at h
    have hsub := ((Bool.and_eq_true _ _).mp h.2).1
    have hrest := ((Bool.and_eq_true _ _).mp h.2).2
    rw [lookupKey] at hl
    by_cases hk : k' = k
    · rw [if_pos hk] at hl
      injection hl with hl
      subst hl
      rwa [subNodupB] at hsub
    · rw [if_neg hk] at hl
      exact ih hrest hl

theorem compatB_lookup {a b : Tree} {k : List Char} {va vb : Value}
    (hc : compatB a b = true) (ha : lookupKey a k = some va) (hb : lookupKey b k = some vb) :
    ∃ ta tb, va = Value.vTree ta ∧ vb = Value.vTree tb ∧ compatB ta tb = true := by
  induction a with
  | nil => simp [lookupKey] at ha
  | cons k' v' rest ih =>
    rw [compatB, Bool.and_eq_true] at hc
    rw [lookupKey] at ha
    by_cases hk : k' = k
    · rw [if_pos hk] at ha
      injection ha with ha
      subst ha hk
      have h1 := hc.1
      rw [hb] at h1
      cases vb with
      | vTree tb =>
        cases v' with
        | vTree ta => exact ⟨ta, tb, rfl, rfl, h1⟩
        | vStr s => exact absurd h1 (by simp)
        | vBool b2 => exact absurd h1 (by simp)
        | vInt n => exact absurd h1 (by simp)
        | vFloat f => exact absurd h1 (by simp)
        | vITree t2 => exact absurd h1 (by simp)
        | vSeq l => exact absurd h1 (by simp)
      | vStr s => exact absurd h1 (by simp)
      | vBool b2 => exact absurd h1 (by simp)
      | vInt n => exact absurd h1 (by simp)
      | vFloat f => exact absurd h1 (by simp)
      | vITree t2 => exact absurd h1 (by simp)
      | vSeq l => exact absurd h1 (by simp)
    · rw [if_neg hk] at ha
      exact ih hc.2 ha

theorem lookupPath_single (t : Tree) (k : List Char) : lookupPath t [k] = lookupKey t k := rfl

theorem lookupPath_cons2_of_tree {t t' : Tree} {k : List Char} (k2 : List Char)
    (rest : List (List Char)) (h : lookupKey t k = some (Value.vTree t')) :
    lookupPath t (k :: k2 :: rest) = lookupPath t' (k2 :: rest) := by
  show (match lookupKey t k with
        | some (.vTree u) => lookupPath u (k2 :: rest)
        | _ => none) = _
  rw [h]

theorem lookupPath_cons2_of_none {t : Tree} {k : List Char} (k2 : List Char)
    (rest : List (List Char)) (h : lookupKey t k = none) :
    lookupPath t (k :: k2 :: rest) = none := by
  show (match lookupKey t k with
        | some (.vTree u) => lookupPath u (k2 :: rest)
        | _ => none) = _
  rw [h]

theorem lookupPath_cons2_of_scalar {t : Tree} {k : List Char} {w : Value} (k2 : List Char)
    (rest : List (List Char)) (h : lookupKey t k = some w) (hw : ∀ ts, w ≠ Value.vTree ts) :
    lookupPath t (k :: k2 :: rest) = none := by
  show (match lookupKey t k with
        | some (.vTree u) => lookupPath u (k2 :: rest)
        | _ => none) = _
  rw [h]
  cases w with
  | vTree ts => exact absurd rfl (hw ts)
  | vStr s => rfl
  | vBool b => rfl
  | vInt n => rfl
  | vFloat f => rfl
  | vITree t2 => rfl
  | vSeq l => rfl

/-- Union property at a key the source does not bind. -/
theorem c5_none_case {a b : Tree} {k : List Char} (hb : lookupKey b k = none)
    (rest : List (List Char)) (v : Value) :
    lookupPath (deepMerge a b) (k :: rest) = some v ↔
      lookupPath a (k :: rest) = some v ∨ lookupPath b (k :: rest) = some v := by
  have hmerged : lookupKey (deepMerge a b) k = lookupKey a k :=
    lookupKey_deepMerge_of_src_none _ hb
  cases rest with
  | nil =>
    rw [lookupPath_single, lookupPath_single, lookupPath_single, hmerged, hb]
    simp
  | cons k2 rest2 =>
    rw [lookupPath_cons2_of_none k2 rest2 hb]
    cases ha : lookupKey a k with
    | none =>
      rw [lookupPath_cons2_of_none k2 rest2 (hmerged.trans ha),
        lookupPath_cons2_of_none k2 rest2 ha]
      simp
    | some va =>
      cases va with
      | vTree ta =>
        rw [lookupPath_cons2_of_tree k2 rest2 (hmerged.trans ha),
          lookupPath_cons2_of_tree k2 rest2 ha]
        simp
      | vStr s =>
        rw [lookupPath_cons2_of_scalar k2 rest2 (hmerged.trans ha)
            (fun _ h2 => Value.noConfusion h2),
          lookupPath_cons2_of_scalar k2 rest2 ha (fun _ h2 => Value.noConfusion h2)]
        simp
      | vBool b2 =>
        rw [lookupPath_cons2_of_scalar k2 rest2 (hmerged.trans ha)
            (fun _ h2 => Value.noConfusion h2),
          lookupPath_cons2_of_scalar k2 rest2 ha (fun _ h2 => Value.noConfusion h2)]
        simp
      | vInt n =>
        rw [lookupPath_cons2_of_scalar k2 rest2 (hmerged.trans ha)
            (fun _ h2 => Value.noConfusion h2),
          lookupPath_cons2_of_scalar k2 rest2 ha (fun _ h2 => Value.noConfusion h2)]
        simp
      | vFloat f =>
        rw [lookupPath_cons2_of_scalar k2 rest2 (hmerged.trans ha)
            (fun _ h2 => Value.noConfusion h2),
          lookupPath_cons2_of_scalar k2 rest2 ha (fun _ h2 => Value.noConfusion h2)]
        simp
      | vITree t2 =>
        rw [lookupPath_cons2_of_scalar k2 rest2 (hmerged.trans ha)
            (fun _ h2 => Value.noConfusion h2),
          lookupPath_cons2_of_scalar k2 rest2 ha (fun _ h2 => Value.noConfusion h2)]
        simp
      | vSeq l =>
        rw [lookupPath_cons2_of_scalar k2 rest2 (hmerged.trans ha)
            (fun _ h2 => Value.noConfusion h2),
          lookupPath_cons2_of_scalar k2 rest2 ha (fun _ h2 => Value.noConfusion h2)]
        simp

/-- Union property at a key the source binds to a non-tree value (under
compatibility the destination then cannot bind that key at all). -/
theorem c5_scalar_case {a b : Tree} {k : List Char} {w : Value}
    (hc : compatB a b = true) (hndb : (keysOf b).Nodup)
    (hb : lookupKey b k = some w) (hw : ∀ ts, w ≠ Value.vTree ts)
    (rest : List (List Char)) (v : Value) :
    lookupPath (deepMerge a b) (k :: rest) = some v ↔
      lookupPath a (k :: rest) = some v ∨ lookupPath b (k :: rest) = some v := by
  have hmerged : lookupKey (deepMerge a b) k = some w :=
    lookupKey_deepMerge_scalar _ hndb hb hw
  have hanone : lookupKey a k = none := by
    cases ha : lookupKey a k with
    | none => rfl
    | some va =>
      obtain ⟨ta, tb, hva, hvb, _⟩ := compatB_lookup hc ha hb
      exact absurd hvb (hw tb)
  cases rest with
  | nil =>
    rw [lookupPath_single, lookupPath_single, lookupPath_single, hmerged, hanone, hb]
    simp
  | cons k2 rest2 =>
    rw [lookupPath_cons2_of_scalar k2 rest2 hmerged hw,
      lookupPath_cons2_of_none k2 rest2 hanone,
      lookupPath_cons2_of_scalar k2 rest2 hb hw]
    simp

/-- Size-bounded core of the C5 union property. -/
theorem c5_union_aux :
    ∀ n a b, tsize b ≤ n → nodupRecB a = true → nodupRecB b = true → compatB a b = true →
      ∀ (p : List (List Char)) (v : Value), (∀ ts, v ≠ Value.vTree ts) →
        (lookupPath (deepMerge a b) p = some v ↔
          lookupPath a p = some v ∨ lookupPath b p = some v) := by
  intro n
  induction n with
  | zero =>
    intro a b hle hna hnb hc p v hv
    cases b with
    | cons k v' rest => rw [tsize] at hle; omega
    | nil =>
      have hbp : lookupPath Tree.nil p = none := by
        cases p with
        | nil => rfl
        | cons k rest => cases rest with
          | nil => rfl
          | cons k2 rest2 => rfl
      rw [show deepMerge a Tree.nil = a from rfl, hbp]
      simp
  | succ n ih =>
    intro a b hle hna hnb hc p v hv
    cases p with
    | nil => simp [lookupPath]
    | cons k rest =>
      have hndb := nodupRecB_keys b hnb
      cases hb : lookupKey b k with
      | none => exact c5_none_case hb rest v
      | some w =>
        cases w with
        | vStr s => exact c5_scalar_case hc hndb hb (fun _ h2 => Value.noConfusion h2) rest v
        | vBool b2 => exact c5_scalar_case hc hndb hb (fun _ h2 => Value.noConfusion h2) rest v
        | vInt n2 => exact c5_scalar_case hc hndb hb (fun _ h2 => Value.noConfusion h2) rest v
        | vFloat f => exact c5_scalar_case hc hndb hb (fun _ h2 => Value.noConfusion h2) rest v
        | vITree t2 => exact c5_scalar_case hc hndb hb (fun _ h2 => Value.noConfusion h2) rest v
        | vSeq l => exact c5_scalar_case hc hndb hb (fun _ h2 => Value.noConfusion h2) rest v
        | vTree tb =>
          have hntb : nodupRecB tb = true := nodupRecB_lookup hnb hb
          have hsize : tsize tb ≤ n := by
            have := tsize_lt_of_lookup_tree hb
            omega
          have hmerged := lookupKey_deepMerge_tree a hndb hb
          cases ha : lookupKey a k with
          | none =>
            rw [ha] at hmerged
            rw [deepMerge_nil_eq tb hntb] at hmerged
            cases rest with
            | nil =>
              rw [lookupPath_single, lookupPath_single, lookupPath_single, hmerged, ha, hb]
              simp
            | cons k2 rest2 =>
              rw [lookupPath_cons2_of_tree k2 rest2 hmerged,
                lookupPath_cons2_of_none k2 rest2 ha,
                lookupPath_cons2_of_tree k2 rest2 hb]
              simp
          | some va =>
            obtain ⟨ta, tb', hva, hvb, hcab⟩ := compatB_lookup hc ha hb
            injection hvb with hvb
            subst hvb hva
            rw [ha] at hmerged
            have hnta : nodupRecB ta = true := nodupRecB_lookup hna ha
            cases rest with
            | nil =>
              rw [lookupPath_single, lookupPath_single, lookupPath_single, hmerged, ha, hb]
              constructor
              · intro h2; injection h2 with h2; exact absurd h2.symm (hv _)
              · intro h2
                rcases h2 with h2 | h2 <;>
                  (injection h2 with h2; exact absurd h2.symm (hv _))
            | cons k2 rest2 =>
              rw [lookupPath_cons2_of_tree k2 rest2 hmerged,
                lookupPath_cons2_of_tree k2 rest2 ha,
                lookupPath_cons2_of_tree k2 rest2 hb]
              exact ih ta tb hsize hnta hntb hcab (k2 :: rest2) v hv

/-- C5: Deep merge is non-destructive for structurally disjoint trees:
whenever the two trees' leaf paths are disjoint at every nesting level
(formalized as `compatB`: every key both trees bind holds subtrees on
both sides, recursively), the merged tree holds a leaf value at a dotted
path exactly when one of the two inputs does — the key-wise union at
every level; and the spec's concrete example merges as stated. -/
theorem c5_deep_merge_disjoint_union :
    (∀ a b, nodupRecB a = true → nodupRecB b = true → compatB a b = true →
      ∀ (p : List (List Char)) (v : Value), (∀ ts, v ≠ Value.vTree ts) →
        (lookupPath (deepMerge a b) p = some v ↔
          lookupPath a p = some v ∨ lookupPath b p = some v)) ∧
    deepMerge (Tree.ofList [(str "app", Value.vTree (Tree.ofList [(str "name", Value.vStr ['x'])]))])
        (Tree.ofList [(str "app", Value.vTree (Tree.ofList [(str "version", Value.vStr ['1'])]))])
      = Tree.ofList
          [(str "app",
            Value.vTree
              (Tree.ofList
                [(str "name", Value.vStr ['x']), (str "version", Value.vStr ['1'])]))] :=
  ⟨fun a b hna hnb hc => c5_union_aux (tsize b) a b le_rfl hna hnb hc, rfl⟩

/-- C5 witness: the union property evaluated on the spec's example
trees, at both leaf paths. -/
theorem c5_deep_merge_disjoint_union_witness :
    lookupPath
        (deepMerge
          (Tree.ofList [(str "app", Value.vTree (Tree.ofList [(str "name", Value.vStr ['x'])]))])
          (Tree.ofList
            [(str "app", Value.vTree (Tree.ofList [(str "version", Value.vStr ['1'])]))]))
        [str "app", str "name"] = some (Value.vStr ['x']) :=
  (c5_deep_merge_disjoint_union.1
      (Tree.ofList [(str "app", Value.vTree (Tree.ofList [(str "name", Value.vStr ['x'])]))])
      (Tree.ofList [(str "app", Value.vTree (Tree.ofList [(str "version", Value.vStr ['1'])]))])
      (by decide) (by decide) (by decide)
      [str "app", str "name"] (Value.vStr ['x'])
      (fun _ h2 => Value.noConfusion h2)).mpr
    (Or.inl rfl)

/-!  The split scanner agrees with leftmost-occurrence splitting. -/

theorem splitFirst_nil (sep : List Char) :
    splitFirst [] sep = if isPref sep [] then some ([], []) else none := rfl

theorem splitFirst_cons (c : Char) (rest sep : List Char) :
    splitFirst (c :: rest) sep =
      if isPref sep (c :: rest) then some ([], (c :: rest).drop sep.length)
      else (splitFirst rest sep).map (fun p => (c :: p.1, p.2)) := rfl

theorem goSplitAux_nil (sep acc : List Char) : ∀ skip : Nat,
    goSplitAux sep skip acc [] = [acc.reverse]
  | 0 => rfl
  | _ + 1 => rfl

theorem goSplitAux_succ (sep acc : List Char) (m : Nat) (c : Char) (rest : List Char) :
    goSplitAux sep (m + 1) acc (c :: rest) = goSplitAux sep m acc rest := rfl

theorem goSplitAux_zero (sep acc : List Char) (c : Char) (rest : List Char) :
    goSplitAux sep 0 acc (c :: rest) =
      if isPref sep (c :: rest) then acc.reverse :: goSplitAux sep (sep.length - 1) [] rest
      else goSplitAux sep 0 (c :: acc) rest := rfl

theorem goSplit_def (s sep : List Char) : goSplit s sep = goSplitAux sep 0 [] s := rfl

/-- In skip mode with an empty accumulator, the scanner just drops
characters. -/
theorem goSplitAux_skip (sep : List Char) :
    ∀ (n : Nat) (t : List Char), goSplitAux sep n [] t = goSplitAux sep 0 [] (t.drop n) := by
  intro n
  induction n with
  | zero => intro t; rw [List.drop_zero]
  | succ m ih =>
    intro t
    cases t with
    | nil => rfl
    | cons c rest => rw [goSplitAux_succ, ih, List.drop_succ_cons]

/-- The accumulator only prepends (reversed) onto the first emitted
segment. -/
theorem goSplitAux_acc (sep : List Char) :
    ∀ (s acc : List Char), ∃ h t, goSplitAux sep 0 [] s = h :: t ∧
      goSplitAux sep 0 acc s = (acc.reverse ++ h) :: t := by
  intro s
  induction s with
  | nil =>
    intro acc
    refine ⟨[], [], rfl, ?_⟩
    rw [goSplitAux_nil]
    simp
  | cons c rest ih =>
    intro acc
    by_cases hp : isPref sep (c :: rest) = true
    · refine ⟨[], goSplitAux sep (sep.length - 1) [] rest, ?_, ?_⟩
      · rw [goSplitAux_zero, if_pos hp]; rfl
      · rw [goSplitAux_zero, if_pos hp]; simp
    · obtain ⟨h, t, hbase, hgen⟩ := ih (c :: acc)
      obtain ⟨h1, t1, hbase1, hgen1⟩ := ih [c]
      have he := hbase1.symm.trans hbase
      injection he with he1 he2
      subst he1 he2
      refine ⟨c :: h1, t1, ?_, ?_⟩
      · rw [goSplitAux_zero, if_neg hp, hgen1]
        simp
      · rw [goSplitAux_zero, if_neg hp, hgen]
        simp

/-- `goSplit` through `splitFirst`: split at the leftmost occurrence and
recurse on the remainder. -/
theorem goSplit_eq_splitFirst (sep : List Char) (hsep : sep ≠ []) :
    ∀ s, goSplit s sep =
      (match splitFirst s sep with
       | none => [s]
       | some (a, b) => a :: goSplit b sep) := by
  intro s
  induction s with
  | nil =>
    have hp : isPref sep [] = false := by
      cases sep with
      | nil => exact absurd rfl hsep
      | cons c cs => rfl
    rw [splitFirst_nil, if_neg (by simp [hp])]
    rfl
  | cons c rest ih =>
    by_cases hp : isPref sep (c :: rest) = true
    · rw [splitFirst_cons, if_pos hp]
      have hd : (c :: rest).drop sep.length = rest.drop (sep.length - 1) := by
        cases sep with
        | nil => exact absurd rfl hsep
        | cons s0 srest => simp [List.length_cons]
      show goSplit (c :: rest) sep = [] :: goSplit ((c :: rest).drop sep.length) sep
      rw [goSplit_def, goSplitAux_zero, if_pos hp, goSplitAux_skip, hd]
      rfl
    · rw [splitFirst_cons, if_neg hp]
      obtain ⟨h, t, hbase, hgen⟩ := goSplitAux_acc sep rest [c]
      rw [goSplit_def, goSplitAux_zero, if_neg hp, hgen]
      rw [goSplit_def, hbase] at ih
      cases hsf : splitFirst rest sep with
      | none =>
        rw [hsf] at ih
        injection ih with ih1 ih2
        subst ih1 ih2
        simp
      | some p =>
        rw [hsf] at ih
        injection ih with ih1 ih2
        subst ih1 ih2
        simp

/-- No occurrence: `strings.Split` returns the whole string. -/
theorem goSplit_of_none {s sep : List Char} (hsep : sep ≠ []) (h : splitFirst s sep = none) :
    goSplit s sep = [s] := by
  rw [goSplit_eq_splitFirst sep hsep s, h]

/-- First occurrence found: split and recurse. -/
theorem goSplit_of_some {s sep a b : List Char} (hsep : sep ≠ [])
    (h : splitFirst s sep = some (a, b)) :
    goSplit s sep = a :: goSplit b sep := by
  rw [goSplit_eq_splitFirst sep hsep s, h]

/-- A successful `Except` fold processed every element successfully
(with some intermediate accumulator). -/
theorem foldlM_except_ok_mem {E α β : Type} (f : β → α → Except E β) :
    ∀ (l : List α) (b b' : β), l.foldlM f b = .ok b' → ∀ a ∈ l, ∃ c c', f c a = .ok c' := by
  intro l
  induction l with
  | nil => intro b b' h a ha; simp at ha
  | cons x xs ih =>
    intro b b' h a ha
    rw [List.foldlM_cons] at h
    cases hfx : f b x with
    | error e =>
      rw [hfx] at h
      exact Except.noConfusion h
    | ok b1 =>
      rw [hfx] at h
      rcases List.mem_cons.mp ha with rfl | ha'
      · exact ⟨b, b1, hfx⟩
      · exact ih b1 b' h a ha'

/-- A segment that `processPair` accepts (and that is nonempty after
trimming) contains an `=`. -/
theorem processPair_ok_contains {acc t : Tree} {s : List Char}
    (h : processPair acc s = .ok t) (hne : trimSpace s ≠ []) :
    strContainsB (trimSpace s) ['='] = true := by
  rw [processPair, if_neg hne] at h
  cases hsp : splitFirst (trimSpace s) ['='] with
  | none =>
    rw [show goSplitN2 (trimSpace s) ['='] = [trimSpace s] from by rw [goSplitN2, hsp]] at h
    exact Except.noConfusion h
  | some p => rw [strContainsB, hsp]; rfl

theorem setNestedWalk_cons2 (t : Tree) (pre : List (List Char)) (k r : List Char)
    (rs : List (List Char)) (v : Value) :
    setNestedWalk t pre (k :: r :: rs) v =
      (match lookupKey t k with
       | some (.vTree m) =>
         (setNestedWalk m (pre ++ [k]) (r :: rs) v).map (fun m' => setKey t k (.vTree m'))
       | none =>
         (setNestedWalk .nil (pre ++ [k]) (r :: rs) v).map (fun m' => setKey t k (.vTree m'))
       | some _ =>
         .error (str "key " ++ joinDots (pre ++ [k]) ++
           str " is not a map, cannot set nested value")) := rfl

theorem except_map_error {E α β : Type} (f : α → β) (x : Except E α) (e : E)
    (h : x.map f = .error e) : x = .error e := by
  cases x with
  | error e' =>
    have h2 : (Except.error e' : Except E β) = Except.error e := h
    injection h2 with h2
    rw [h2]
  | ok a => exact Except.noConfusion h

/-- A failing `Except` fold failed on some element. -/
theorem foldlM_except_error_mem {E α β : Type} (f : β → α → Except E β) :
    ∀ (l : List α) (b : β) (e : E), l.foldlM f b = .error e →
      ∃ a ∈ l, ∃ c, f c a = .error e := by
  intro l
  induction l with
  | nil => intro b e h; exact Except.noConfusion h
  | cons x xs ih =>
    intro b e h
    rw [List.foldlM_cons] at h
    cases hfx : f b x with
    | error e' =>
      rw [hfx] at h
      have he : Except.error (α := β) e' = Except.error e := h
      injection he with he
      subst he
      exact ⟨x, List.mem_cons_self x xs, b, hfx⟩
    | ok b1 =>
      rw [hfx] at h
      obtain ⟨a, ha, c, hc⟩ := ih b1 e h
      exact ⟨a, List.mem_cons_of_mem _ ha, c, hc⟩

/-- Every error of `setNestedWalk` is a collision error. -/
theorem setNestedWalk_error_shape (v : Value) :
    ∀ (keyList : List (List Char)) (t : Tree) (pre : List (List Char)) (e : List Char),
      setNestedWalk t pre keyList v = .error e →
      ∃ p, e = str "key " ++ joinDots p ++ str " is not a map, cannot set nested value" := by
  intro keyList
  induction keyList with
  | nil => intro t pre e h; exact Except.noConfusion h
  | cons k rest ih =>
    intro t pre e h
    cases rest with
    | nil => exact Except.noConfusion h
    | cons r rs =>
      rw [setNestedWalk_cons2] at h
      cases hl : lookupKey t k with
      | none =>
        rw [hl] at h
        exact ih .nil (pre ++ [k]) e (except_map_error _ _ _ h)
      | some w =>
        cases w with
        | vTree m =>
          rw [hl] at h
          exact ih m (pre ++ [k]) e (except_map_error _ _ _ h)
        | vStr s => rw [hl] at h; injection h with h; exact ⟨pre ++ [k], h.symm⟩
        | vBool b => rw [hl] at h; injection h with h; exact ⟨pre ++ [k], h.symm⟩
        | vInt n => rw [hl] at h; injection h with h; exact ⟨pre ++ [k], h.symm⟩
        | vFloat f => rw [hl] at h; injection h with h; exact ⟨pre ++ [k], h.symm⟩
        | vITree t2 => rw [hl] at h; injection h with h; exact ⟨pre ++ [k], h.symm⟩
        | vSeq l => rw [hl] at h; injection h with h; exact ⟨pre ++ [k], h.symm⟩

/-- Every error of `processPair` is either the format error of a
trimmed nonempty `=`-free segment, or a wrapped collision error from
the nested write. -/
theorem processPair_error_inv {acc : Tree} {s : List Char} {e : List Char}
    (h : processPair acc s = .error e) :
    trimSpace s ≠ [] ∧
      ((strContainsB (trimSpace s) ['='] = false ∧
         e = str "invalid set value format: " ++ trimSpace s ++ str " (expected key=value)") ∨
       (∃ k0 v0 e', splitFirst (trimSpace s) ['='] = some (k0, v0) ∧
         e = str "error setting nested value for key " ++ trimSpace k0 ++ str ": " ++ e' ∧
         ∃ p, e' = str "key " ++ joinDots p ++ str " is not a map, cannot set nested value")) := by
  rw [processPair] at h
  by_cases hne : trimSpace s = []
  · rw [if_pos hne] at h
    exact Except.noConfusion h
  · rw [if_neg hne] at h
    refine ⟨hne, ?_⟩
    cases hsp : splitFirst (trimSpace s) ['='] with
    | none =>
      rw [show goSplitN2 (trimSpace s) ['='] = [trimSpace s] from by rw [goSplitN2, hsp]] at h
      injection h with h
      exact Or.inl ⟨by rw [strContainsB, hsp]; rfl, h.symm⟩
    | some p =>
      obtain ⟨k0, v0⟩ := p
      rw [show goSplitN2 (trimSpace s) ['='] = [k0, v0] from by rw [goSplitN2, hsp]] at h
      have h' :
          (match setNestedValue acc (trimSpace k0) (convertValue (trimSpace v0)) with
           | Except.ok t2 => Except.ok t2
           | Except.error e2 =>
             Except.error
               (str "error setting nested value for key " ++ trimSpace k0 ++ str ": " ++ e2))
            = Except.error e := h
      cases hsn : setNestedValue acc (trimSpace k0) (convertValue (trimSpace v0)) with
      | ok t2 => rw [hsn] at h'; exact Except.noConfusion h'
      | error e2 =>
        rw [hsn] at h'
        injection h' with h'
        exact Or.inr ⟨k0, v0, e2, rfl, h'.symm,
          setNestedWalk_error_shape _ _ _ _ _ hsn⟩

/-- C6: Override parsing error conditions.  (i) When `ParseSetValues`
succeeds, every trimmed nonempty comma-separated segment of every input
string contains an `=`.  (ii) A trimmed nonempty segment without `=`
makes `processPair` fail with the format error.  (iii) A dotted key
whose intermediate segment hits an existing non-tree value makes the
nested write fail with the collision error.  (iv) Conversely, every
`ParseSetValues` error comes from some segment of some input and is the
format error of an `=`-free trimmed nonempty segment or a wrapped
collision error — there is no other failure source.  (v) On well-formed
input the values are written at their dotted paths, previously written
sibling entries are preserved, and the collision scenario of the spec
aborts `ParseSetValues` with the wrapped collision error. -/
theorem c6_parse_set_values :
    (∀ (vs : List (List Char)) (t : Tree), ParseSetValues vs = .ok t →
      ∀ raw ∈ vs, ∀ seg ∈ goSplit raw [','], trimSpace seg ≠ [] →
        strContainsB (trimSpace seg) ['='] = true) ∧
    (∀ (acc : Tree) (s : List Char), trimSpace s ≠ [] →
      strContainsB (trimSpace s) ['='] = false →
      processPair acc s =
        .error (str "invalid set value format: " ++ trimSpace s ++
          str " (expected key=value)")) ∧
    (∀ (t : Tree) (pre : List (List Char)) (k r : List Char) (rs : List (List Char))
        (v w : Value), lookupKey t k = some w → (∀ ts, w ≠ Value.vTree ts) →
      setNestedWalk t pre (k :: r :: rs) v =
        .error (str "key " ++ joinDots (pre ++ [k]) ++
          str " is not a map, cannot set nested value")) ∧
    (∀ (vs : List (List Char)) (e : List Char), ParseSetValues vs = .error e →
      ∃ raw ∈ vs, ∃ seg ∈ goSplit raw [','], trimSpace seg ≠ [] ∧
        ((strContainsB (trimSpace seg) ['='] = false ∧
           e = str "invalid set value format: " ++ trimSpace seg ++
             str " (expected key=value)") ∨
         (∃ k0 v0 e', splitFirst (trimSpace seg) ['='] = some (k0, v0) ∧
           e = str "error setting nested value for key " ++ trimSpace k0 ++ str ": " ++ e' ∧
           ∃ p, e' = str "key " ++ joinDots p ++
             str " is not a map, cannot set nested value"))) ∧
    ParseSetValues [str "app.name=test"]
      = .ok (Tree.ofList
          [(str "app", Value.vTree (Tree.ofList [(str "name", Value.vStr (str "test"))]))]) ∧
    ParseSetValues [str "app.name=test", str "app.host=x"]
      = .ok (Tree.ofList
          [(str "app",
            Value.vTree
              (Tree.ofList
                [(str "name", Value.vStr (str "test")), (str "host", Value.vStr ['x'])]))]) ∧
    ParseSetValues [str "app=notamap", str "app.version=a"]
      = .error (str
          "error setting nested value for key app.version: key app is not a map, cannot set nested value") := by
  refine ⟨?_, ?_, ?_, ?_, rfl, rfl, rfl⟩
  · intro vs t hok raw hraw seg hseg hne
    obtain ⟨c, c', hinner⟩ := foldlM_except_ok_mem _ vs _ _ hok raw hraw
    obtain ⟨d, d', hp⟩ := foldlM_except_ok_mem _ (goSplit raw [',']) _ _ hinner seg hseg
    exact processPair_ok_contains hp hne
  · intro acc s hne hnc
    rw [processPair, if_neg hne]
    rw [strContainsB] at hnc
    cases hsp : splitFirst (trimSpace s) ['='] with
    | none => rw [show goSplitN2 (trimSpace s) ['='] = [trimSpace s] from by rw [goSplitN2, hsp]]
    | some p => rw [hsp] at hnc; exact absurd hnc (by simp)
  · intro t pre k r rs v w hw hnt
    rw [setNestedWalk_cons2, hw]
    cases w with
    | vTree ts => exact absurd rfl (hnt ts)
    | vStr s => rfl
    | vBool b => rfl
    | vInt n => rfl
    | vFloat f => rfl
    | vITree t2 => rfl
    | vSeq l => rfl
  · intro vs e herr
    obtain ⟨raw, hraw, c, hinner⟩ := foldlM_except_error_mem _ vs _ _ herr
    obtain ⟨seg, hseg, d, hp⟩ := foldlM_except_error_mem _ (goSplit raw [',']) _ _ hinner
    obtain ⟨hne, hcase⟩ := processPair_error_inv hp
    exact ⟨raw, hraw, seg, hseg, hne, hcase⟩

/-- C6 witness: the format-error and collision clauses evaluated on
concrete inputs. -/
theorem c6_parse_set_values_witness :
    processPair .nil (str " debug ")
      = .error (str "invalid set value format: " ++ str "debug" ++
          str " (expected key=value)") ∧
    setNestedWalk (Tree.ofList [(str "app", Value.vStr (str "notamap"))]) []
        (str "app" :: str "version" :: []) (Value.vStr ['a'])
      = .error (str "key " ++ joinDots ([] ++ [str "app"]) ++
          str " is not a map, cannot set nested value") :=
  ⟨c6_parse_set_values.2.1 .nil (str " debug ") (by decide) (by decide),
    c6_parse_set_values.2.2.1 (Tree.ofList [(str "app", Value.vStr (str "notamap"))]) []
      (str "app") (str "version") [] (Value.vStr ['a']) (Value.vStr (str "notamap"))
      rfl (fun _ h2 => Value.noConfusion h2)⟩

/-!  Occurrence lemmas for the error-message pattern matching. -/

theorem isPref_iff_take (s : List Char) :
    ∀ u : List Char, isPref s u = true ↔ u.take s.length = s := by
  induction s with
  | nil => intro u; simp [isPref]
  | cons a as ih =>
    intro u
    cases u with
    | nil => simp [isPref]
    | cons b bs =>
      show (decide (a = b) && isPref as bs) = true ↔ _
      rw [List.length_cons, List.take_succ_cons]
      constructor
      · intro h
        obtain ⟨h1, h2⟩ := (Bool.and_eq_true _ _).mp h
        have hab : a = b := of_decide_eq_true h1
        rw [(ih bs).mp h2, hab]
      · intro h
        injection h with h1 h2
        exact (Bool.and_eq_true _ _).mpr ⟨decide_eq_true h1.symm, (ih bs).mpr h2⟩

theorem isPref_append_self (s t : List Char) : isPref s (s ++ t) = true := by
  rw [isPref_iff_take, List.take_left]

theorem splitFirst_self (sep b : List Char) (hsep : sep ≠ []) :
    splitFirst (sep ++ b) sep = some ([], b) := by
  cases hs : sep with
  | nil => exact absurd hs hsep
  | cons s0 srest =>
    subst hs
    rw [List.cons_append, splitFirst_cons]
    rw [if_pos (by rw [← List.cons_append]; exact isPref_append_self _ b)]
    rw [← List.cons_append, List.drop_left]

/-- A prefix test only looks at the first `|sep|` characters, so a tail
beyond a window of `|sep| - 1` characters after `x` is irrelevant. -/
theorem isPref_window {sep : List Char} (x y : List Char) (hx : x ≠ [])
    (h : isPref sep (x ++ y.take (sep.length - 1)) = false) :
    isPref sep (x ++ y) = false := by
  cases hp : isPref sep (x ++ y) with
  | false => rfl
  | true =>
    rw [isPref_iff_take] at hp
    have hwin : (x ++ y.take (sep.length - 1)).take sep.length = (x ++ y).take sep.length := by
      rw [List.take_append_eq_append_take, List.take_append_eq_append_take, List.take_take]
      have hx1 : 1 ≤ x.length := List.length_pos.mpr hx
      rw [Nat.min_eq_left (by omega)]
    have : isPref sep (x ++ y.take (sep.length - 1)) = true := by
      rw [isPref_iff_take, hwin, hp]
    rw [this] at h
    exact Bool.noConfusion h

/-- A string that does not contain `sep` neither starts with it nor
contains it in its tail. -/
theorem contains_false_head {sep : List Char} (c : Char) (u : List Char)
    (h : strContainsB (c :: u) sep = false) :
    isPref sep (c :: u) = false ∧ strContainsB u sep = false := by
  rw [strContainsB, splitFirst_cons] at h
  by_cases hp : isPref sep (c :: u) = true
  · rw [if_pos hp] at h
    exact absurd h (by simp)
  · rw [if_neg hp] at h
    refine ⟨by rwa [Bool.not_eq_true] at hp, ?_⟩
    rw [strContainsB]
    cases hsf : splitFirst u sep with
    | none => rfl
    | some p => rw [hsf] at h; exact absurd h (by simp)

/-- Splitting off a left chunk that is free of the separator (up to the
overlap window). -/
theorem splitFirst_append {sep : List Char} (hsep : sep ≠ []) :
    ∀ (a t : List Char), strContainsB (a ++ t.take (sep.length - 1)) sep = false →
      splitFirst (a ++ t) sep = (splitFirst t sep).map (fun p => (a ++ p.1, p.2)) := by
  intro a
  induction a with
  | nil =>
    intro t _
    rw [List.nil_append]
    cases splitFirst t sep with
    | none => rfl
    | some p => simp
  | cons c a' ih =>
    intro t hno
    rw [List.cons_append] at hno
    obtain ⟨hp0, hno'⟩ := contains_false_head c (a' ++ t.take (sep.length - 1)) hno
    have hp : isPref sep (c :: (a' ++ t)) = false := by
      have := isPref_window (c :: a') t (by simp) (by rwa [List.cons_append])
      rwa [List.cons_append] at this
    rw [List.cons_append, splitFirst_cons, if_neg (by rw [hp]; simp), ih t hno']
    cases splitFirst t sep with
    | none => rfl
    | some p => simp

/-- Any string of the shape `x ++ sep ++ y` contains `sep`. -/
theorem strContains_mid (sep : List Char) (hsep : sep ≠ []) :
    ∀ (x y : List Char), strContainsB (x ++ (sep ++ y)) sep = true := by
  intro x
  induction x with
  | nil =>
    intro y
    rw [List.nil_append, strContainsB, splitFirst_self sep y hsep]
    rfl
  | cons c x' ih =>
    intro y
    rw [List.cons_append, strContainsB, splitFirst_cons]
    by_cases hp : isPref sep (c :: (x' ++ (sep ++ y))) = true
    · rw [if_pos hp]; rfl
    · rw [if_neg hp]
      have := ih y
      rw [strContainsB] at this
      cases hsf : splitFirst (x' ++ (sep ++ y)) sep with
      | none => rw [hsf] at this; exact absurd this (by simp)
      | some p => rfl

/-- Index of the first quote after a quote-free chunk. -/
theorem goIndexOf_append_quote (z : List Char) :
    ∀ K : List Char, '"' ∉ K → goIndexOf (K ++ '"' :: z) '"' = (K.length : Int) := by
  intro K
  induction K with
  | nil => intro _; rw [List.nil_append, goIndexOf, if_pos rfl]; rfl
  | cons c K' ih =>
    intro hq
    have hc : ¬(c = '"') := fun h => hq (by rw [h]; exact List.mem_cons_self _ _)
    have hK' : '"' ∉ K' := fun h => hq (List.mem_cons_of_mem _ h)
    rw [List.cons_append, goIndexOf, if_neg hc]
    rw [ih hK']
    rw [if_neg (by omega), List.length_cons]
    omega

/-- `keyBranch` on a message whose parts after the first `key "` start
with a nonempty quote-free K followed by a quote: extracts K. -/
theorem keyBranch_of_parts {m A K w : List Char} {tail : List (List Char)}
    (hcont : strContainsB m mapKeyPat = true)
    (hparts : goSplit m keyQuotePat = A :: (K ++ '"' :: w) :: tail)
    (h3 : K ≠ []) (h4 : '"' ∉ K) : keyBranch m = some K := by
  rw [keyBranch, if_pos hcont, hparts]
  show (if 0 < goIndexOf (K ++ '"' :: w) '"' then
      some ((K ++ '"' :: w).take (goIndexOf (K ++ '"' :: w) '"').toNat) else none) = some K
  rw [goIndexOf_append_quote w K h4]
  rw [if_pos (Int.natCast_pos.mpr (List.length_pos.mpr h3))]
  rw [Int.toNat_natCast, List.take_left]

/-- General key extraction: on any message of the shape
`pre ++ "map has no entry for key \"" ++ K ++ "\"" ++ suf` whose prefix
does not already contain `key "` (h1), whose key region contains no
earlier `key "` occurrence (h2), and whose K is nonempty (h3) and
quote-free (h4), the extractor returns K. -/
theorem keyBranch_extracts (pre K suf : List Char)
    (h1 : strContainsB (pre ++ str "map has no entry for key ") keyQuotePat = false)
    (h2 : strContainsB (K ++ '"' :: suf.take 4) keyQuotePat = false)
    (h3 : K ≠ []) (h4 : '"' ∉ K) :
    keyBranch (pre ++ (str "map has no entry for key \"" ++ (K ++ '"' :: suf))) = some K := by
  have hkq : keyQuotePat ≠ [] := by decide
  have hcont : strContainsB
      (pre ++ (str "map has no entry for key \"" ++ (K ++ '"' :: suf))) mapKeyPat = true := by
    have hm1 : pre ++ (str "map has no entry for key \"" ++ (K ++ '"' :: suf))
        = pre ++ (mapKeyPat ++ ((' ' :: ['"']) ++ (K ++ '"' :: suf))) := rfl
    rw [hm1]
    exact strContains_mid mapKeyPat (by decide) pre _
  have hm2 : pre ++ (str "map has no entry for key \"" ++ (K ++ '"' :: suf))
      = (pre ++ str "map has no entry for ") ++ (keyQuotePat ++ (K ++ '"' :: suf)) := by
    rw [List.append_assoc]
    rfl
  have hcond : strContainsB
      ((pre ++ str "map has no entry for ") ++
        (keyQuotePat ++ (K ++ '"' :: suf)).take (keyQuotePat.length - 1)) keyQuotePat = false := by
    have ht4 : (keyQuotePat ++ (K ++ '"' :: suf)).take (keyQuotePat.length - 1) = str "key " := rfl
    rw [ht4]
    have : (pre ++ str "map has no entry for ") ++ str "key "
        = pre ++ str "map has no entry for key " := by
      rw [List.append_assoc]
      rfl
    rw [this]
    exact h1
  have hsplitm : splitFirst
      (pre ++ (str "map has no entry for key \"" ++ (K ++ '"' :: suf))) keyQuotePat
      = some (pre ++ str "map has no entry for ", K ++ '"' :: suf) := by
    rw [hm2, splitFirst_append hkq _ _ hcond,
      splitFirst_self keyQuotePat (K ++ '"' :: suf) hkq]
    simp
  have hgs : goSplit (pre ++ (str "map has no entry for key \"" ++ (K ++ '"' :: suf))) keyQuotePat
      = (pre ++ str "map has no entry for ") :: goSplit (K ++ '"' :: suf) keyQuotePat :=
    goSplit_of_some hkq hsplitm
  have hcond2 : strContainsB ((K ++ ['"']) ++ suf.take (keyQuotePat.length - 1))
      keyQuotePat = false := by
    have : (K ++ ['"']) ++ suf.take (keyQuotePat.length - 1) = K ++ '"' :: suf.take 4 := by
      rw [List.append_assoc]
      rfl
    rw [this]
    exact h2
  have hz : K ++ '"' :: suf = (K ++ ['"']) ++ suf := by rw [List.append_assoc]; rfl
  have hsplitz := splitFirst_append hkq (K ++ ['"']) suf hcond2
  cases hsufsp : splitFirst suf keyQuotePat with
  | none =>
    rw [hsufsp] at hsplitz
    have hgz : goSplit (K ++ '"' :: suf) keyQuotePat = [K ++ '"' :: suf] := by
      rw [hz]
      exact goSplit_of_none hkq hsplitz
    rw [hgz] at hgs
    exact keyBranch_of_parts hcont hgs h3 h4
  | some p =>
    rw [hsufsp] at hsplitz
    have hgz : goSplit (K ++ '"' :: suf) keyQuotePat
        = ((K ++ ['"']) ++ p.1) :: goSplit p.2 keyQuotePat := by
      rw [hz]
      exact goSplit_of_some hkq (by rw [hsplitz]; rfl)
    rw [hgz] at hgs
    have hshape : (K ++ ['"']) ++ p.1 = K ++ '"' :: p.1 := by rw [List.append_assoc]; rfl
    rw [hshape] at hgs
    exact keyBranch_of_parts hcont hgs h3 h4

/-- `fieldBranch` on a message whose part after the first `field `
starts with a space-free F followed by a space: extracts F. -/
theorem fieldBranch_of_parts {m A2 F w : List Char} {tail : List (List Char)}
    (hcont : strContainsB m cantEvalPat = true)
    (hparts : goSplit m fieldSpacePat = A2 :: (F ++ ' ' :: w) :: tail)
    (h4 : strContainsB F [' '] = false) :
    fieldBranch m = some F := by
  have hc : strContainsB (F ++ ([] : List Char)) [' '] = false := by
    rw [List.append_nil]; exact h4
  have hss : splitFirst (' ' :: w) [' '] = some ([], w) :=
    splitFirst_self [' '] w (by decide)
  have hsp1 : splitFirst (F ++ ' ' :: w) [' '] = some (F, w) := by
    rw [@splitFirst_append [' '] (by decide) F (' ' :: w) hc, hss]
    simp
  have hgs1 : goSplit (F ++ ' ' :: w) [' '] = F :: goSplit w [' '] :=
    goSplit_of_some (by decide) hsp1
  rw [fieldBranch, if_pos hcont, hparts]
  show (match goSplit (F ++ ' ' :: w) [' '] with
        | s0 :: _ => some s0
        | [] => none) = some F
  rw [hgs1]

/-- General field extraction: on any message of the shape
`pre ++ "can't evaluate field " ++ F ++ " " ++ suf` whose prefix does
not already contain `field ` (h2), whose field region contains no
earlier `field ` occurrence (h3), and whose F is space-free (h4), the
field branch returns F. -/
theorem fieldBranch_extracts (pre F suf : List Char)
    (h2 : strContainsB (pre ++ str "can't evaluate field") fieldSpacePat = false)
    (h3 : strContainsB (F ++ ' ' :: suf.take 5) fieldSpacePat = false)
    (h4 : strContainsB F [' '] = false) :
    fieldBranch (pre ++ (str "can't evaluate field " ++ (F ++ ' ' :: suf))) = some F := by
  have hfs : fieldSpacePat ≠ [] := by decide
  have hcont : strContainsB
      (pre ++ (str "can't evaluate field " ++ (F ++ ' ' :: suf))) cantEvalPat = true := by
    have hm1 : pre ++ (str "can't evaluate field " ++ (F ++ ' ' :: suf))
        = pre ++ (cantEvalPat ++ ((' ' :: []) ++ (F ++ ' ' :: suf))) := rfl
    rw [hm1]
    exact strContains_mid cantEvalPat (by decide) pre _
  have hm2 : pre ++ (str "can't evaluate field " ++ (F ++ ' ' :: suf))
      = (pre ++ str "can't evaluate ") ++ (fieldSpacePat ++ (F ++ ' ' :: suf)) := by
    rw [List.append_assoc]
    rfl
  have hcond : strContainsB
      ((pre ++ str "can't evaluate ") ++
        (fieldSpacePat ++ (F ++ ' ' :: suf)).take (fieldSpacePat.length - 1))
      fieldSpacePat = false := by
    have ht5 : (fieldSpacePat ++ (F ++ ' ' :: suf)).take (fieldSpacePat.length - 1)
        = str "field" := rfl
    rw [ht5]
    have : (pre ++ str "can't evaluate ") ++ str "field"
        = pre ++ str "can't evaluate field" := by
      rw [List.append_assoc]
      rfl
    rw [this]
    exact h2
  have hsplitm : splitFirst
      (pre ++ (str "can't evaluate field " ++ (F ++ ' ' :: suf))) fieldSpacePat
      = some (pre ++ str "can't evaluate ", F ++ ' ' :: suf) := by
    rw [hm2, splitFirst_append hfs _ _ hcond,
      splitFirst_self fieldSpacePat (F ++ ' ' :: suf) hfs]
    simp
  have hgs : goSplit (pre ++ (str "can't evaluate field " ++ (F ++ ' ' :: suf))) fieldSpacePat
      = (pre ++ str "can't evaluate ") :: goSplit (F ++ ' ' :: suf) fieldSpacePat :=
    goSplit_of_some hfs hsplitm
  have hcond2 : strContainsB ((F ++ [' ']) ++ suf.take (fieldSpacePat.length - 1))
      fieldSpacePat = false := by
    have : (F ++ [' ']) ++ suf.take (fieldSpacePat.length - 1) = F ++ ' ' :: suf.take 5 := by
      rw [List.append_assoc]
      rfl
    rw [this]
    exact h3
  have hz : F ++ ' ' :: suf = (F ++ [' ']) ++ suf := by rw [List.append_assoc]; rfl
  have hsplitz := splitFirst_append hfs (F ++ [' ']) suf hcond2
  cases hsufsp : splitFirst suf fieldSpacePat with
  | none =>
    rw [hsufsp] at hsplitz
    have hgz : goSplit (F ++ ' ' :: suf) fieldSpacePat = [F ++ ' ' :: suf] := by
      rw [hz]
      exact goSplit_of_none hfs hsplitz
    rw [hgz] at hgs
    exact fieldBranch_of_parts hcont hgs h4
  | some p =>
    rw [hsufsp] at hsplitz
    have hgz : goSplit (F ++ ' ' :: suf) fieldSpacePat
        = ((F ++ [' ']) ++ p.1) :: goSplit p.2 fieldSpacePat := by
      rw [hz]
      exact goSplit_of_some hfs (by rw [hsplitz]; rfl)
    rw [hgz] at hgs
    have hshape : (F ++ [' ']) ++ p.1 = F ++ ' ' :: p.1 := by rw [List.append_assoc]; rfl
    rw [hshape] at hgs
    exact fieldBranch_of_parts hcont hgs h4

/-- C3 counterexample: the message `map has no entry for key ""`
contains the claimed pattern with K equal to the empty string, so the
claim maps it to the empty string; the code returns the literal
`unknown` instead (the `endQuote > 0` guard rejects an empty key). -/
theorem c3_counterexample :
    strContainsB (str "map has no entry for key \"\"")
        (str "map has no entry for key \"" ++ ([] ++ str "\"")) = true ∧
    extractVariableFromError (str "map has no entry for key \"\"") = str "unknown" ∧
    str "unknown" ≠ ([] : List Char) :=
  ⟨rfl, rfl, by decide⟩

/-- C3 (amended): `extractVariableFromError` maps every message of the
shape `pre ++ "map has no entry for key \"" ++ K ++ "\"" ++ suf` to K
provided K is nonempty and quote-free and the canonical occurrence is
the first (`pre` holds no earlier `key "`, the key region no earlier
one); when the quoted key is empty the key branch falls through instead
of returning the empty string.  Messages of the shape
`pre ++ "can't evaluate field " ++ F ++ " " ++ suf` (without the map
pattern, with the canonical `field ` occurrence first and F space-free)
map to F, even when F is empty.  Every message containing neither
phrase maps to the literal `unknown`, so an identifier is always
produced. -/
theorem c3_extract_variable :
    (∀ pre K suf : List Char,
      strContainsB (pre ++ str "map has no entry for key ") keyQuotePat = false →
      strContainsB (K ++ '"' :: suf.take 4) keyQuotePat = false →
      K ≠ [] → '"' ∉ K →
      extractVariableFromError
          (pre ++ (str "map has no entry for key \"" ++ (K ++ '"' :: suf))) = K) ∧
    (∀ pre F suf : List Char,
      strContainsB (pre ++ (str "can't evaluate field " ++ (F ++ ' ' :: suf)))
        mapKeyPat = false →
      strContainsB (pre ++ str "can't evaluate field") fieldSpacePat = false →
      strContainsB (F ++ ' ' :: suf.take 5) fieldSpacePat = false →
      strContainsB F [' '] = false →
      extractVariableFromError
          (pre ++ (str "can't evaluate field " ++ (F ++ ' ' :: suf))) = F) ∧
    (∀ s, strContainsB s mapKeyPat = false → strContainsB s cantEvalPat = false →
      extractVariableFromError s = str "unknown") := by
  refine ⟨?_, ?_, ?_⟩
  · intro pre K suf h1 h2 h3 h4
    rw [extractVariableFromError, keyBranch_extracts pre K suf h1 h2 h3 h4]
  · intro pre F suf h1 h2 h3 h4
    have hkb : keyBranch (pre ++ (str "can't evaluate field " ++ (F ++ ' ' :: suf))) = none := by
      rw [keyBranch, if_neg (by rw [h1]; simp)]
    rw [extractVariableFromError, hkb, fieldBranch_extracts pre F suf h2 h3 h4]
  · intro s h1 h2
    have hkb : keyBranch s = none := by
      rw [keyBranch, if_neg (by rw [h1]; simp)]
    have hfb : fieldBranch s = none := by
      rw [fieldBranch, if_neg (by rw [h2]; simp)]
    rw [extractVariableFromError, hkb, hfb]

set_option maxRecDepth 10000 in
/-- C3 (amended) witness: the three clauses evaluated on the engine's
actual message shapes and on an unrecognized message. -/
theorem c3_extract_variable_witness :
    extractVariableFromError
        (str "template: test:1:2: executing \"test\" at <.undefined>: "
          ++ (str "map has no entry for key \"" ++ (str "undefined" ++ '"' :: [])))
      = str "undefined" ∧
    extractVariableFromError
        (str "template: test:1:2: executing \"test\" at <.app.missing>: "
          ++ (str "can't evaluate field " ++ (str "missing" ++ ' ' :: str "in type map")))
      = str "missing" ∧
    extractVariableFromError (str "some other error") = str "unknown" :=
  ⟨c3_extract_variable.1 (str "template: test:1:2: executing \"test\" at <.undefined>: ")
      (str "undefined") [] (by decide) (by decide) (by decide) (by decide),
    c3_extract_variable.2.1 (str "template: test:1:2: executing \"test\" at <.app.missing>: ")
      (str "missing") (str "in type map") (by decide) (by decide) (by decide) (by decide),
    c3_extract_variable.2.2 (str "some other error") (by decide) (by decide)⟩

set_option maxRecDepth 10000 in
/-- C2: Strict vs lenient rendering of `Hello {{name}}!` against data
lacking `name`: lenient mode renders the `<no value>` placeholder and
succeeds; strict mode fails with a `StrictModeError` whose `Variable`
is the missing key and whose `Template` is the template's name. -/
theorem c2_strict_vs_lenient :
    ∀ data : Tree, lookupKey data (str "name") = none →
      ExecuteTemplate
          (ParseTemplate (NewStrictTemplate (str "test") false)
            [.lit (str "Hello "), .lookup (str "name"), .lit (str "!")]) data
        = .ok (str "Hello <no value>!") ∧
      ExecuteTemplate
          (ParseTemplate (NewStrictTemplate (str "test") true)
            [.lit (str "Hello "), .lookup (str "name"), .lit (str "!")]) data
        = .error (.strictErr { Variable := str "name", Template := str "test" }) := by
  intro data h
  constructor
  · have hrun : runEngine false (str "test")
        [.lit (str "Hello "), .lookup (str "name"), .lit (str "!")] data
        = .ok (str "Hello <no value>!") := by
      rw [runEngine, runEngine, h]
      rfl
    show (match runEngine false (str "test")
        [.lit (str "Hello "), .lookup (str "name"), .lit (str "!")] data with
      | .ok result => Except.ok result
      | .error e => Except.error (ExecError.engineErr e)) = _
    rw [hrun]
  · have hrun : runEngine true (str "test")
        [.lit (str "Hello "), .lookup (str "name"), .lit (str "!")] data
        = .error (missingKeyMsg (str "test") (str "name")) := by
      rw [runEngine, runEngine, h]
      rfl
    show (match runEngine true (str "test")
        [.lit (str "Hello "), .lookup (str "name"), .lit (str "!")] data with
      | .ok result => Except.ok result
      | .error e =>
        if strContainsB e mapKeyPat || strContainsB e cantEvalPat then
          Except.error (ExecError.strictErr
            { Variable := extractVariableFromError e, Template := str "test" })
        else Except.error (ExecError.engineErr e)) = _
    rw [hrun]
    rfl

set_option maxRecDepth 10000 in
/-- C2 witness: both modes evaluated against the empty data tree. -/
theorem c2_strict_vs_lenient_witness :
    ExecuteTemplate
        (ParseTemplate (NewStrictTemplate (str "test") false)
          [.lit (str "Hello "), .lookup (str "name"), .lit (str "!")]) .nil
      = .ok (str "Hello <no value>!") ∧
    ExecuteTemplate
        (ParseTemplate (NewStrictTemplate (str "test") true)
          [.lit (str "Hello "), .lookup (str "name"), .lit (str "!")]) .nil
      = .error (.strictErr { Variable := str "name", Template := str "test" }) :=
  c2_strict_vs_lenient .nil rfl

/-!  Heap lemmas for the aliasing claim. -/

/-- Reference invariant: every node at an address in the fresh region
(at or above `N`) only refers to addresses in the fresh region. -/
def INV (N : Nat) (h : Heap) : Prop :=
  ∀ a, N ≤ a → ∀ (k : List Char) (b : Nat), (k, .hTree b) ∈ hread h a → N ≤ b

theorem hread_eq (h : Heap) (a : Nat) :
    hread h a = (match lookupAddr h.data a with | some node => node | none => []) := rfl

theorem hwrite_data (h : Heap) (a : Nat) (k : List Char) (v : HValue) :
    (hwrite h a k v).data
      = h.data.map (fun p => if p.1 = a then (p.1, hsetEntry p.2 k v) else p) := rfl

theorem hwrite_next (h : Heap) (a : Nat) (k : List Char) (v : HValue) :
    (hwrite h a k v).next = h.next := rfl

theorem halloc_data (h : Heap) : (halloc h).2.data = (h.next, []) :: h.data := rfl

theorem halloc_next (h : Heap) : (halloc h).2.next = h.next + 1 := rfl

theorem lookupAddr_map_write_eq (k : List Char) (v : HValue) (a : Nat) :
    ∀ l : List (Nat × HNode),
      lookupAddr (l.map (fun p => if p.1 = a then (p.1, hsetEntry p.2 k v) else p)) a
        = (lookupAddr l a).map (fun node => hsetEntry node k v) := by
  intro l
  induction l with
  | nil => rfl
  | cons p rest ih =>
    obtain ⟨pa, pn⟩ := p
    by_cases hp : pa = a
    · subst hp
      rw [List.map_cons, if_pos rfl]
      rw [lookupAddr, if_pos rfl, lookupAddr, if_pos rfl]
      rfl
    · rw [List.map_cons, if_neg hp, lookupAddr, if_neg hp, lookupAddr, if_neg hp, ih]

theorem lookupAddr_map_write_ne (k : List Char) (v : HValue) (a b : Nat) (hne : a ≠ b) :
    ∀ l : List (Nat × HNode),
      lookupAddr (l.map (fun p => if p.1 = a then (p.1, hsetEntry p.2 k v) else p)) b
        = lookupAddr l b := by
  intro l
  induction l with
  | nil => rfl
  | cons p rest ih =>
    obtain ⟨pa, pn⟩ := p
    by_cases hp : pa = a
    · subst hp
      rw [List.map_cons, if_pos rfl, lookupAddr, if_neg hne, lookupAddr, if_neg hne, ih]
    · rw [List.map_cons, if_neg hp]
      by_cases hb : pa = b
      · rw [lookupAddr, if_pos hb, lookupAddr, if_pos hb]
      · rw [lookupAddr, if_neg hb, lookupAddr, if_neg hb, ih]

theorem hread_hwrite_ne (h : Heap) {a b : Nat} (k : List Char) (v : HValue) (hne : a ≠ b) :
    hread (hwrite h a k v) b = hread h b := by
  rw [hread_eq, hread_eq, hwrite_data, lookupAddr_map_write_ne k v a b hne]

theorem hread_hwrite_self (h : Heap) (a : Nat) (k : List Char) (v : HValue) :
    hread (hwrite h a k v) a
      = (match lookupAddr h.data a with | some node => hsetEntry node k v | none => []) := by
  rw [hread_eq, hwrite_data, lookupAddr_map_write_eq k v a]
  cases lookupAddr h.data a with
  | none => rfl
  | some node => rfl

theorem mem_hsetEntry {k2 : List Char} {w : HValue} {k : List Char} {v : HValue} :
    ∀ node : HNode, (k2, w) ∈ hsetEntry node k v → w = v ∨ (k2, w) ∈ node := by
  intro node
  induction node with
  | nil =>
    intro hmem
    rw [hsetEntry] at hmem
    rcases List.mem_singleton.mp hmem with h2
    exact Or.inl (congrArg Prod.snd h2)
  | cons e rest ih =>
    intro hmem
    rw [hsetEntry] at hmem
    by_cases he : e.1 = k
    · rw [if_pos he] at hmem
      rcases List.mem_cons.mp hmem with h2 | h2
      · exact Or.inl (congrArg Prod.snd h2)
      · exact Or.inr (List.mem_cons_of_mem _ h2)
    · rw [if_neg he] at hmem
      rcases List.mem_cons.mp hmem with h2 | h2
      · exact Or.inr (h2 ▸ List.mem_cons_self _ _)
      · rcases ih h2 with h3 | h3
        · exact Or.inl h3
        · exact Or.inr (List.mem_cons_of_mem _ h3)

theorem INV_hwrite {N : Nat} {h : Heap} {dst : Nat} {k : List Char} {v : HValue}
    (hinv : INV N h) (hv : ∀ b, v = .hTree b → N ≤ b) : INV N (hwrite h dst k v) := by
  intro a ha k2 b hmem
  by_cases hda : dst = a
  · subst hda
    rw [hread_hwrite_self] at hmem
    cases hl : lookupAddr h.data dst with
    | none => rw [hl] at hmem; exact absurd hmem (by simp)
    | some node =>
      rw [hl] at hmem
      rcases mem_hsetEntry node hmem with h2 | h2
      · exact hv b h2.symm
      · exact hinv dst ha k2 b (by rw [hread_eq, hl]; exact h2)
  · rw [hread_hwrite_ne h k v hda] at hmem
    exact hinv a ha k2 b hmem

theorem hread_halloc_ne (h : Heap) {b : Nat} (hne : b ≠ h.next) :
    hread (halloc h).2 b = hread h b := by
  rw [hread_eq, hread_eq, halloc_data, lookupAddr, if_neg (fun h2 => hne h2.symm)]

theorem hread_halloc_self (h : Heap) : hread (halloc h).2 h.next = [] := by
  rw [hread_eq, halloc_data, lookupAddr, if_pos rfl]

theorem INV_halloc {N : Nat} {h : Heap} (hinv : INV N h) : INV N (halloc h).2 := by
  intro a ha k b hmem
  by_cases hna : a = h.next
  · subst hna
    rw [hread_halloc_self] at hmem
    exact absurd hmem (by simp)
  · rw [hread_halloc_ne h hna] at hmem
    exact hinv a ha k b hmem

theorem lookupEntry_mem : ∀ {node : HNode} {k : List Char} {v : HValue},
    lookupEntry node k = some v → (k, v) ∈ node := by
  intro node
  induction node with
  | nil => intro k v h; exact Option.noConfusion h
  | cons e rest ih =>
    intro k v h
    obtain ⟨ek, ev⟩ := e
    rw [lookupEntry] at h
    by_cases hk : ek = k
    · rw [if_pos hk] at h
      injection h with h
      subst hk h
      exact List.mem_cons_self _ _
    · rw [if_neg hk] at h
      exact List.mem_cons_of_mem _ (ih h)

theorem runMerge_entries_tree (fuel : Nat) (dst : Nat) (k : List Char) (srcMap : Nat)
    (rest : HNode) (h : Heap) :
    runMerge (fuel + 1) (.entries dst ((k, .hTree srcMap) :: rest)) h =
      (match lookupEntry (hread h dst) k with
       | some (.hTree dstMap) =>
         (runMerge fuel (.merge dstMap srcMap) h).bind
           (fun h1 => runMerge fuel (.entries dst rest) h1)
       | _ =>
         (runMerge fuel (.merge h.next srcMap) (halloc h).2).bind
           (fun h2 => runMerge fuel (.entries dst rest) (hwrite h2 dst k (.hTree h.next)))) := rfl

theorem runMerge_entries_scalar (fuel : Nat) (dst : Nat) (k : List Char) (v : HValue)
    (rest : HNode) (h : Heap) (hv : ∀ a, v ≠ .hTree a) :
    runMerge (fuel + 1) (.entries dst ((k, v) :: rest)) h
      = runMerge fuel (.entries dst rest) (hwrite h dst k v) := by
  cases v with
  | hTree a => exact absurd rfl (hv a)
  | hStr s => rfl
  | hInt n => rfl
  | hBool b => rfl

/-- Frame property of the heap-level merge: with destination in the
fresh region (at or above `N`) and the fresh-region invariant holding,
a successful run leaves every node below `N` untouched, preserves the
invariant, and only grows the allocation pointer. -/
theorem runMerge_frame (N : Nat) :
    ∀ fuel : Nat, ∀ (task : MergeTask) (h h' : Heap),
      runMerge fuel task h = some h' →
      (match task with | .merge dst _ => N ≤ dst | .entries dst _ => N ≤ dst) →
      INV N h → N ≤ h.next →
      (∀ b, b < N → hread h' b = hread h b) ∧ INV N h' ∧ h.next ≤ h'.next := by
  intro fuel
  induction fuel with
  | zero =>
    intro task h h' hrun
    exact absurd hrun (fun hh => Option.noConfusion hh)
  | succ n ih =>
    intro task h h' hrun hdst hinv hnext
    cases task with
    | merge dst src =>
      exact ih (.entries dst (hread h src)) h h' hrun hdst hinv hnext
    | entries dst es =>
      cases es with
      | nil =>
        have heq : h = h' := by injection hrun
        subst heq
        exact ⟨fun b _ => rfl, hinv, le_rfl⟩
      | cons e rest =>
        obtain ⟨k, v⟩ := e
        have hdN : N ≤ dst := hdst
        have scalarCase : ∀ (w : HValue), (∀ a, w ≠ HValue.hTree a) →
            runMerge n (.entries dst rest) (hwrite h dst k w) = some h' →
            (∀ b, b < N → hread h' b = hread h b) ∧ INV N h' ∧ h.next ≤ h'.next := by
          intro w hw hrun2
          have hi : INV N (hwrite h dst k w) := INV_hwrite hinv (fun b hb => absurd hb (hw b))
          have hle : N ≤ (hwrite h dst k w).next := by rw [hwrite_next]; omega
          obtain ⟨hu, hi2, hn2⟩ := ih (.entries dst rest) (hwrite h dst k w) h' hrun2 hdN hi hle
          rw [hwrite_next] at hn2
          refine ⟨?_, hi2, hn2⟩
          intro b hb
          have hbd : dst ≠ b := by omega
          rw [hu b hb, hread_hwrite_ne h k w hbd]
        have allocCase : ∀ srcMap : Nat,
            (runMerge n (.merge h.next srcMap) (halloc h).2).bind
              (fun h2 => runMerge n (.entries dst rest) (hwrite h2 dst k (.hTree h.next)))
              = some h' →
            (∀ b, b < N → hread h' b = hread h b) ∧ INV N h' ∧ h.next ≤ h'.next := by
          intro srcMap hrun2
          cases hm1 : runMerge n (.merge h.next srcMap) (halloc h).2 with
          | none => rw [hm1] at hrun2; exact Option.noConfusion hrun2
          | some h2 =>
            rw [hm1] at hrun2
            have hrun3 : runMerge n (.entries dst rest) (hwrite h2 dst k (.hTree h.next))
                = some h' := hrun2
            have hle1 : N ≤ (halloc h).2.next := by rw [halloc_next]; omega
            obtain ⟨hu1, hi1, hn1⟩ := ih (.merge h.next srcMap) (halloc h).2 h2 hm1 hnext
              (INV_halloc hinv) hle1
            rw [halloc_next] at hn1
            have hi3 : INV N (hwrite h2 dst k (.hTree h.next)) :=
              INV_hwrite hi1 (fun b hb => by injection hb with hb; omega)
            have hle3 : N ≤ (hwrite h2 dst k (HValue.hTree h.next)).next := by
              rw [hwrite_next]; omega
            obtain ⟨hu2, hi4, hn4⟩ := ih (.entries dst rest) (hwrite h2 dst k (.hTree h.next))
              h' hrun3 hdN hi3 hle3
            rw [hwrite_next] at hn4
            refine ⟨?_, hi4, by omega⟩
            intro b hb
            have hbd : dst ≠ b := by omega
            have hbn : b ≠ h.next := by omega
            rw [hu2 b hb, hread_hwrite_ne h2 k _ hbd, hu1 b hb, hread_halloc_ne h hbn]
        cases v with
        | hTree srcMap =>
          rw [runMerge_entries_tree] at hrun
          cases hlk : lookupEntry (hread h dst) k with
          | none =>
            rw [hlk] at hrun
            exact allocCase srcMap hrun
          | some w =>
            rw [hlk] at hrun
            cases w with
            | hTree dstMap =>
              have hrun' : (runMerge n (.merge dstMap srcMap) h).bind
                  (fun h1 => runMerge n (.entries dst rest) h1) = some h' := hrun
              cases hm1 : runMerge n (.merge dstMap srcMap) h with
              | none => rw [hm1] at hrun'; exact Option.noConfusion hrun'
              | some h1 =>
                rw [hm1] at hrun'
                have hrun2 : runMerge n (.entries dst rest) h1 = some h' := hrun'
                have hdstMap : N ≤ dstMap := hinv dst hdN k dstMap (lookupEntry_mem hlk)
                obtain ⟨hu1, hi1, hn1⟩ := ih (.merge dstMap srcMap) h h1 hm1 hdstMap hinv hnext
                have hle2 : N ≤ h1.next := le_trans hnext hn1
                obtain ⟨hu2, hi2, hn2⟩ := ih (.entries dst rest) h1 h' hrun2 hdN hi1 hle2
                exact ⟨fun b hb => (hu2 b hb).trans (hu1 b hb), hi2, le_trans hn1 hn2⟩
            | hStr s => exact allocCase srcMap hrun
            | hInt n2 => exact allocCase srcMap hrun
            | hBool b2 => exact allocCase srcMap hrun
        | hStr s =>
          exact scalarCase (.hStr s) (fun _ hb => HValue.noConfusion hb) hrun
        | hInt n2 =>
          exact scalarCase (.hInt n2) (fun _ hb => HValue.noConfusion hb) hrun
        | hBool b2 =>
          exact scalarCase (.hBool b2) (fun _ hb => HValue.noConfusion hb) hrun

theorem lookupAddr_mem : ∀ {l : List (Nat × HNode)} {a : Nat} {node : HNode},
    lookupAddr l a = some node → (a, node) ∈ l := by
  intro l
  induction l with
  | nil => intro a node h; exact Option.noConfusion h
  | cons e rest ih =>
    intro a node h
    obtain ⟨ea, en⟩ := e
    rw [lookupAddr] at h
    by_cases ha : ea = a
    · rw [if_pos ha] at h
      injection h with h
      subst ha h
      exact List.mem_cons_self _ _
    · rw [if_neg ha] at h
      exact List.mem_cons_of_mem _ (ih h)

theorem wf_spec {h : Heap} (hwf : wfHeapB h = true) :
    ∀ {a : Nat} {node : HNode}, (a, node) ∈ h.data →
      a < h.next ∧ ∀ (k : List Char) (b : Nat), (k, HValue.hTree b) ∈ node → b < h.next := by
  intro a node hmem
  rw [wfHeapB, List.all_eq_true] at hwf
  have h1 := (Bool.and_eq_true _ _).mp (hwf (a, node) hmem)
  refine ⟨of_decide_eq_true h1.1, ?_⟩
  intro k b hmemb
  have h2 := h1.2
  rw [List.all_eq_true] at h2
  exact of_decide_eq_true (h2 (k, HValue.hTree b) hmemb)

theorem mem_hread {h : Heap} {a : Nat} {k : List Char} {v : HValue}
    (hmem : (k, v) ∈ hread h a) :
    ∃ node, lookupAddr h.data a = some node ∧ (k, v) ∈ node := by
  rw [hread_eq] at hmem
  cases hl : lookupAddr h.data a with
  | none => rw [hl] at hmem; exact absurd hmem (by simp)
  | some node => rw [hl] at hmem; exact ⟨node, rfl, hmem⟩

/-- In a well-formed heap, everything reachable from a root below the
allocation pointer stays below it. -/
theorem Reach_lt_of_wf {h : Heap} {root : Nat} (hwf : wfHeapB h = true)
    (hroot : root < h.next) : ∀ {a : Nat}, Reach h root a → a < h.next := by
  intro a hr
  induction hr with
  | refl => exact hroot
  | step hr2 hmem ih =>
    obtain ⟨node, hl, hmemn⟩ := mem_hread hmem
    exact (wf_spec hwf (lookupAddr_mem hl)).2 _ _ hmemn

/-- Under the fresh-region invariant, reachability from a fresh root
stays in the fresh region. -/
theorem Reach_ge_of_INV {N : Nat} {h : Heap} {r : Nat} (hinv : INV N h) (hr : N ≤ r) :
    ∀ {a : Nat}, Reach h r a → N ≤ a := by
  intro a hreach
  induction hreach with
  | refl => exact hr
  | step hr2 hmem ih => exact hinv _ ih _ _ hmem

/-- Reachability from an old root in the final heap stays below the old
allocation pointer, because old nodes are unchanged. -/
theorem Reach_old_lt {h h' : Heap} {root : Nat} (hwf : wfHeapB h = true)
    (hunch : ∀ b, b < h.next → hread h' b = hread h b) (hroot : root < h.next) :
    ∀ {a : Nat}, Reach h' root a → a < h.next := by
  intro a hr
  induction hr with
  | refl => exact hroot
  | step hr2 hmem ih =>
    rename_i a0 b0 k0
    rw [hunch a0 ih] at hmem
    obtain ⟨node, hl, hmemn⟩ := mem_hread hmem
    exact (wf_spec hwf (lookupAddr_mem hl)).2 _ _ hmemn

theorem INV_of_wf {h : Heap} (hwf : wfHeapB h = true) : INV h.next h := by
  intro a ha k b hmem
  obtain ⟨node, hl, _⟩ := mem_hread hmem
  have := (wf_spec hwf (lookupAddr_mem hl)).1
  omega

/-- C4: merge does not alias sources.  Run on a well-formed heap whose
four input trees live at allocated addresses, `MergeValues` (heap model
`MergeValuesH`) leaves every pre-existing node unchanged, and every map
node reachable from the merged result is freshly allocated (its address
is at or above the input heap's allocation pointer).  Hence mutating any
subtree of the merged result (a `hwrite` at a result-reachable address)
leaves every subtree of every input tree reading exactly as in the input
heap: the merged tree shares no node with the sources. -/
theorem c4_merge_no_aliasing (fuel : Nat) (h h' : Heap) (y e s c r : Nat)
    (hwf : wfHeapB h = true)
    (hy : y < h.next) (he : e < h.next) (hs : s < h.next) (hc : c < h.next)
    (hrun : MergeValuesH fuel y e s c h = some (r, h')) :
    (∀ b, b < h.next → hread h' b = hread h b) ∧
    (∀ a, Reach h' r a → h.next ≤ a) ∧
    (∀ root, root < h.next → ∀ a b k v, Reach h' r a → Reach h' root b →
      hread (hwrite h' a k v) b = hread h b) := by
  have hm : ((((runMerge fuel (.merge h.next y) (halloc h).2).bind
      (runMerge fuel (.merge h.next e))).bind
      (runMerge fuel (.merge h.next s))).bind
      (runMerge fuel (.merge h.next c))).map (fun h4 => (h.next, h4)) = some (r, h') := hrun
  cases h1o : runMerge fuel (.merge h.next y) (halloc h).2 with
  | none => rw [h1o] at hm; simp at hm
  | some h1 =>
  rw [h1o] at hm
  have hm1 : (((runMerge fuel (.merge h.next e) h1).bind
      (runMerge fuel (.merge h.next s))).bind
      (runMerge fuel (.merge h.next c))).map (fun h4 => (h.next, h4)) = some (r, h') := hm
  cases h2o : runMerge fuel (.merge h.next e) h1 with
  | none => rw [h2o] at hm1; simp at hm1
  | some h2 =>
  rw [h2o] at hm1
  have hm2 : ((runMerge fuel (.merge h.next s) h2).bind
      (runMerge fuel (.merge h.next c))).map (fun h4 => (h.next, h4)) = some (r, h') := hm1
  cases h3o : runMerge fuel (.merge h.next s) h2 with
  | none => rw [h3o] at hm2; simp at hm2
  | some h3 =>
  rw [h3o] at hm2
  have hm3 : (runMerge fuel (.merge h.next c) h3).map (fun h4 => (h.next, h4))
      = some (r, h') := hm2
  cases h4o : runMerge fuel (.merge h.next c) h3 with
  | none => rw [h4o] at hm3; simp at hm3
  | some h4 =>
  rw [h4o] at hm3
  have hp : (some (h.next, h4) : Option (Nat × Heap)) = some (r, h') := hm3
  injection hp with hp2
  have hre : r = h.next := (congrArg Prod.fst hp2).symm
  have hhe : h' = h4 := (congrArg Prod.snd hp2).symm
  subst hre
  subst hhe
  have hinv0 : INV h.next h := INV_of_wf hwf
  have hinv0a : INV h.next (halloc h).2 := INV_halloc hinv0
  have hle0 : h.next ≤ (halloc h).2.next := by rw [halloc_next]; omega
  obtain ⟨u1, i1, n1⟩ :=
    runMerge_frame h.next fuel (.merge h.next y) (halloc h).2 h1 h1o le_rfl hinv0a hle0
  have hle1 : h.next ≤ h1.next := le_trans hle0 n1
  obtain ⟨u2, i2, n2⟩ :=
    runMerge_frame h.next fuel (.merge h.next e) h1 h2 h2o le_rfl i1 hle1
  have hle2 : h.next ≤ h2.next := le_trans hle1 n2
  obtain ⟨u3, i3, n3⟩ :=
    runMerge_frame h.next fuel (.merge h.next s) h2 h3 h3o le_rfl i2 hle2
  have hle3 : h.next ≤ h3.next := le_trans hle2 n3
  obtain ⟨u4, i4, n4⟩ :=
    runMerge_frame h.next fuel (.merge h.next c) h3 h' h4o le_rfl i3 hle3
  have hunch : ∀ b, b < h.next → hread h' b = hread h b := by
    intro b hb
    rw [u4 b hb, u3 b hb, u2 b hb, u1 b hb, hread_halloc_ne h (by omega)]
  refine ⟨hunch, ?_, ?_⟩
  · intro a hra
    exact Reach_ge_of_INV i4 le_rfl hra
  · intro root hroot a b k v hra hrb
    have hbN : b < h.next := Reach_old_lt hwf hunch hroot hrb
    have haN : h.next ≤ a := Reach_ge_of_INV i4 le_rfl hra
    rw [hread_hwrite_ne h' k v (by omega), hunch b hbN]

/-- Concrete input heap for the C4 witness: source trees at addresses
0–3; tree 0 holds a nested subtree at address 1. -/
def c4H0 : Heap :=
  { data := [(0, [(str "a", .hTree 1)]), (1, [(str "b", .hStr (str "x"))]),
             (2, []), (3, [])],
    next := 4 }

/-- Result heap of merging `c4H0`'s four trees (fresh nodes 4 and 5). -/
def c4Hres : Heap :=
  { data := [(5, [(str "b", .hStr (str "x"))]),
             (4, [(str "a", .hTree 5), (str "b", .hStr (str "x"))]),
             (0, [(str "a", .hTree 1)]), (1, [(str "b", .hStr (str "x"))]),
             (2, []), (3, [])],
    next := 6 }

theorem c4_merge_no_aliasing_witness :
    (∀ b, b < c4H0.next → hread c4Hres b = hread c4H0 b) ∧
    (∀ a, Reach c4Hres 4 a → c4H0.next ≤ a) ∧
    (∀ root, root < c4H0.next → ∀ a b k v, Reach c4Hres 4 a → Reach c4Hres root b →
      hread (hwrite c4Hres a k v) b = hread c4H0 b) :=
  c4_merge_no_aliasing 10 c4H0 c4Hres 0 1 2 3 4 (by decide)
    (by decide) (by decide) (by decide) (by decide) rfl

end Templater

example : Templater.goSplit (Templater.str "a,b,") [','] = [['a'], ['b'], []] := rfl
example : Templater.goSplit (Templater.str "abc") [','] = [Templater.str "abc"] := rfl
example : Templater.goSplitN2 (Templater.str "a=b=c") ['='] = [['a'], Templater.str "b=c"] := rfl
example : Templater.goAtoi (Templater.str "123") = some 123 := rfl
example : Templater.goAtoi (Templater.str "3.14") = none := rfl
example : Templater.goParseFloat (Templater.str "3.14") = some (.finite 314 (-2)) := by decide
example : Templater.goParseFloat (Templater.str "-2e3") = some (.finite (-2) 3) := by decide
example : Templater.goParseFloat (Templater.str "Inf") = some (.inf false) := by decide
example : Templater.goParseFloat (Templater.str "hello") = none := rfl
example : Templater.trimSpace (Templater.str "  a b  ") = Templater.str "a b" := rfl
example : Templater.goIndexOf (Templater.str "ab\"c") '"' = 2 := rfl
example : Templater.strContainsB (Templater.str "xkey \"y") (Templater.str "key \"") = true := rfl

example : Templater.deepMerge (.ofList [(['a'], .vStr ['x'])]) (.ofList [(['a'], .vStr ['y'])])
    = .ofList [(['a'], .vStr ['y'])] := rfl

example : Templater.deepMerge (.ofList [(['a'], .vTree (.ofList [(['n'], .vStr ['x'])]))])
      (.ofList [(['a'], .vTree (.ofList [(['v'], .vStr ['1'])]))])
    = .ofList [(['a'], .vTree (.ofList [(['n'], .vStr ['x']), (['v'], .vStr ['1'])]))] := rfl
